import Mathlib

/-!
Shallow embedding of the JSDev preprocessor (jsdev.c) and verification of
its specification claims.  The scanner state, character-at-a-time input
primitives (`get`, `peek`, `unget`), the lexical skippers (`string`,
`regexp`, `condition`, `stuff`), the pattern engine (`processLoop`) and the
command-line parser of `main` are translated function by function from the
C source.  Loops are modelled with an explicit fuel parameter; a run that
exhausts its fuel returns the distinguished result `R.fuel`, which no
theorem below ever identifies with a real outcome of the program.
-/

namespace JSDev

/-- Scanner state: the remaining input bytes, the one-character pushback
slot (`0` means empty, exactly as the C global `preview`), the CR flag and
current line number used by the diagnostics, and the bytes emitted so far.
Input characters are modelled as `Int` because the C code works with `int`
characters where `EOF` is `-1` and any value `≤ 0` returned by `fgetc`
(that is, a NUL byte) is treated as end of input. -/
structure St where
  input : List Int
  preview : Int
  cr : Bool
  line_nr : Nat
  out : List Int
deriving Repr, DecidableEq

/-- Result of a scanning routine: normal return, a fatal diagnostic with
the line number and message that `error` would print (line `0` marks the
configuration-time failure that prints `bad command line` instead of a
line number), or exhaustion of the fuel of the bounded-recursion model. -/
inductive R (α : Type) where
  | ok : α → R α
  | err : Nat → String → R α
  | fuel : R α
deriving Repr, DecidableEq

def EOF : Int := -1

def msgCloseInString : String := "unexpected close comment in string."
def msgUntermString : String := "unterminated string literal."
def msgCloseInRegexp : String := "unexpected close comment in regexp."
def msgUntermSet : String := "unterminated set in Regular Expression literal."
def msgUnexpComment : String := "unexpected comment."
def msgUntermRegexp : String := "unterminated regexp literal."
def msgUntermCondition : String := "Unterminated condition."
def msgUnclosedCondition : String := "unclosed condition."
def msgUntermStuff : String := "Unterminated stuff."
def msgUntermComment : String := "unterminated comment."
def msgNestedComment : String := "nested comment."
def msgBadCommandLine : String := "bad command line"

/-- Byte codes of a string literal, for readable concrete inputs. -/
def strBytes (s : String) : List Int :=
  s.data.map (fun ch => (ch.toNat : Int))

/-- `is_alphanum` from jsdev.c: letter, digit, underscore, dollar, period. -/
def is_alphanum (c : Int) : Prop :=
  (97 ≤ c ∧ c ≤ 122) ∨ (48 ≤ c ∧ c ≤ 57) ∨ (65 ≤ c ∧ c ≤ 90) ∨
    c = 95 ∨ c = 36 ∨ c = 46

instance (c : Int) : Decidable (is_alphanum c) := by
  unfold is_alphanum; infer_instance

/-- `emit` from jsdev.c: send a character to the output, ignoring any
value that is not a positive character code. -/
def emit (c : Int) (st : St) : St :=
  if 0 < c then { st with out := st.out ++ [c] } else st

/-- `emits` from jsdev.c: send a whole string to the output. -/
def emits (s : List Int) (st : St) : St :=
  { st with out := st.out ++ s }

/-- `peek` from jsdev.c: `preview = preview ? preview : fgetc(stdin)`.
Reading at end of input stores `EOF` in the slot; reading a NUL byte
consumes it while leaving the slot empty, as in the C original. -/
def peek (st : St) : Int × St :=
  if st.preview ≠ 0 then (st.preview, st)
  else
    match st.input with
    | [] => (EOF, { st with preview := EOF })
    | b :: t => (b, { st with preview := b, input := t })

/-- The line-number bookkeeping performed by `get` on a character that is
actually returned: CR counts a line and sets the flag, LF counts a line
only when not preceded by CR, anything else clears the flag. -/
def lineStep (cr : Bool) (n : Nat) (c : Int) : Bool × Nat :=
  if c = 13 then (true, n + 1)
  else if c = 10 ∧ cr = false then (false, n + 1)
  else (false, n)

/-- `get` from jsdev.c: take the pushback character if present, otherwise
the next input byte; any value `≤ 0` is returned as `EOF` (the byte, if
one was consumed, stays consumed); otherwise the line counter is updated
and the character is optionally echoed. -/
def get (echo : Bool) (st : St) : Int × St :=
  let g :=
    if st.preview ≠ 0 then (st.preview, { st with preview := 0 })
    else
      match st.input with
      | [] => (EOF, st)
      | b :: t => (b, { st with input := t })
  if g.1 ≤ 0 then (EOF, g.2)
  else
    let p := lineStep g.2.cr g.2.line_nr g.1
    let st2 := { g.2 with cr := p.1, line_nr := p.2 }
    (g.1, if echo then emit g.1 st2 else st2)

/-- `unget` from jsdev.c. -/
def unget (c : Int) (st : St) : St :=
  { st with preview := c }

/-- `pre_regexp` from jsdev.c: the fixed left-context set that makes a
following slash start a regular-expression literal. -/
def pre_regexp (left : Int) : Prop :=
  left = 40 ∨ left = 44 ∨ left = 61 ∨ left = 58 ∨ left = 91 ∨ left = 33 ∨
    left = 38 ∨ left = 124 ∨ left = 63 ∨ left = 123 ∨ left = 125 ∨ left = 59

instance (l : Int) : Decidable (pre_regexp l) := by
  unfold pre_regexp; infer_instance

/-- The loop of `string` from jsdev.c. `was` is the line number saved on
entry; it is restored for the unterminated-string diagnostic. A backslash
escapes the next character after the quote test; the close-comment test
applies to the character left in `c`, escaped or not. -/
def strLoop (q : Int) (inC : Bool) (was : Nat) : Nat → St → R St
  | 0, _ => .fuel
  | n + 1, st =>
    let g := get true st
    if g.1 = q then .ok g.2
    else
      let h := if g.1 = 92 then get true g.2 else g
      let k :=
        if inC ∧ h.1 = 42 then
          let pk := peek h.2
          (decide (pk.1 = 47), pk.2)
        else (false, h.2)
      if k.1 = true then .err k.2.line_nr msgCloseInString
      else if h.1 = EOF then .err was msgUntermString
      else strLoop q inC was n k.2

/-- `string` from jsdev.c. -/
def string (q : Int) (inC : Bool) (fuel : Nat) (st : St) : R St :=
  strLoop q inC st.line_nr fuel st

/-- The bracket-class loop inside `regexp` from jsdev.c. -/
def rexClass (inC : Bool) : Nat → St → R St
  | 0, _ => .fuel
  | n + 1, st =>
    let g := get true st
    if g.1 = 93 then .ok g.2
    else
      let h := if g.1 = 92 then get true g.2 else g
      let k :=
        if inC ∧ h.1 = 42 then
          let pk := peek h.2
          (decide (pk.1 = 47), pk.2)
        else (false, h.2)
      if k.1 = true then .err k.2.line_nr msgCloseInRegexp
      else if h.1 = EOF then .err k.2.line_nr msgUntermSet
      else rexClass inC n k.2

/-- The main loop of `regexp` from jsdev.c.  After a bracket class the C
code falls through to the common close-comment and EOF tests with `c`
still `]`, on which both are no-ops, so the translation recurses
directly.  In the close branch the C condition
`peek() == charSlash || peek() == charStar` calls `peek` twice; both
calls are modelled. -/
def rexLoop (inC : Bool) (was : Nat) : Nat → St → R St
  | 0, _ => .fuel
  | n + 1, st =>
    let g := get true st
    if g.1 = 91 then
      match rexClass inC n g.2 with
      | .ok st2 => rexLoop inC was n st2
      | r => r
    else if g.1 = 47 then
      if inC then
        let p1 := peek g.2
        if p1.1 = 47 then .err p1.2.line_nr msgUnexpComment
        else
          let p2 := peek p1.2
          if p2.1 = 42 then .err p2.2.line_nr msgUnexpComment
          else .ok p2.2
      else .ok g.2
    else
      let h := if g.1 = 92 then get true g.2 else g
      let k :=
        if inC ∧ h.1 = 42 then
          let pk := peek h.2
          (decide (pk.1 = 47), pk.2)
        else (false, h.2)
      if k.1 = true then .err k.2.line_nr msgUnexpComment
      else if h.1 = EOF then .err was msgUntermRegexp
      else rexLoop inC was n k.2

/-- `regexp` from jsdev.c. -/
def regexp (inC : Bool) (fuel : Nat) (st : St) : R St :=
  rexLoop inC st.line_nr fuel st

/-- The loop of `condition` from jsdev.c, carrying the local `left`
register and the bracket-nesting counter `paren`. -/
def condLoop : Int → Int → Nat → St → R St
  | _, _, 0, _ => .fuel
  | left, paren, n + 1, st =>
    let g := get true st
    let c := g.1
    let l2 := if 32 < c then c else left
    if c = 40 ∨ c = 123 ∨ c = 91 then condLoop l2 (paren + 1) n g.2
    else if c = 41 ∨ c = 125 ∨ c = 93 then
      if paren - 1 = 0 then .ok g.2
      else condLoop l2 (paren - 1) n g.2
    else if c = EOF then .err g.2.line_nr msgUntermCondition
    else if c = 39 ∨ c = 34 ∨ c = 96 then
      match string c true n g.2 with
      | .ok st2 => condLoop l2 paren n st2
      | r => r
    else if c = 47 then
      let p1 := peek g.2
      if p1.1 = 47 then .err p1.2.line_nr msgUnexpComment
      else
        let p2 := peek p1.2
        if p2.1 = 42 then .err p2.2.line_nr msgUnexpComment
        else if pre_regexp left then
          match regexp true n p2.2 with
          | .ok st2 => condLoop l2 paren n st2
          | r => r
        else condLoop l2 paren n p2.2
    else
      let k :=
        if c = 42 then
          let pk := peek g.2
          (decide (pk.1 = 47), pk.2)
        else (false, g.2)
      if k.1 = true then .err k.2.line_nr msgUnclosedCondition
      else condLoop l2 paren n k.2

/-- `condition` from jsdev.c.  The C local `left` is read before any
assignment only if the first character is not an opener; at its call site
the first character is always `(`, so the uninitialised value is modelled
as `0`. -/
def condition (fuel : Nat) (st : St) : R St :=
  condLoop 0 0 fuel st

/-- The `while (peek() == charStar)` prefix loop of `stuff` from jsdev.c:
consume a star, and either finish on a following slash or emit the star
and look again.  Returns `true` when the closing star-slash was found. -/
def starLoop : Nat → St → R (Bool × St)
  | 0, _ => .fuel
  | n + 1, st =>
    let p := peek st
    if p.1 = 42 then
      let g := get false p.2
      let p2 := peek g.2
      if p2.1 = 47 then
        let g2 := get false p2.2
        .ok (true, g2.2)
      else starLoop n (emit 42 p2.2)
    else .ok (false, p.2)

/-- The loop of `stuff` from jsdev.c. -/
def stuffLoop : Int → Nat → St → R St
  | _, 0, _ => .fuel
  | left, n + 1, st =>
    match starLoop (n + 1) st with
    | .ok (true, st1) => .ok st1
    | .ok (false, st1) =>
      let g := get true st1
      let c := g.1
      let l2 := if 32 < c then c else left
      if c = EOF then .err g.2.line_nr msgUntermStuff
      else if c = 39 ∨ c = 34 ∨ c = 96 then
        match string c true n g.2 with
        | .ok st2 => stuffLoop l2 n st2
        | r => r
      else if c = 47 then
        let p1 := peek g.2
        if p1.1 = 47 then .err p1.2.line_nr msgUnexpComment
        else
          let p2 := peek p1.2
          if p2.1 = 42 then .err p2.2.line_nr msgUnexpComment
          else if pre_regexp left then
            match regexp true n p2.2 with
            | .ok st2 => stuffLoop l2 n st2
            | r => r
          else stuffLoop l2 n p2.2
      else stuffLoop l2 n g.2
    | .err l m => .err l m
    | .fuel => .fuel

/-- `stuff` from jsdev.c; the local `left` starts as the brace. -/
def stuff (fuel : Nat) (st : St) : R St :=
  stuffLoop 123 fuel st

/-- One command-table entry: the trigger `cmd` and the replacement
function name `command`, empty when the trigger was declared bare
(`commands[n][0] == 0` in the C source). -/
structure Entry where
  cmd : List Int
  command : List Int
deriving Repr, DecidableEq

/-- `match` from jsdev.c: first entry whose trigger equals the scanned
identifier. -/
def matchCmd (cs : List Int) (table : List Entry) : Option Entry :=
  table.find? (fun e => e.cmd == cs)

/-- The output shape of `expand` after the optional condition: brace,
optional `command(`, the stuff body, optional `)`, then `;}`. -/
def expandBody (e : Entry) (fuel : Nat) (st : St) : R St :=
  let st1 := emit 123 st
  if e.command ≠ [] then
    let st2 := emit 40 (emits e.command st1)
    match stuff fuel st2 with
    | .ok st3 => .ok (emits (strBytes ";\x7d") (emit 41 st3))
    | r => r
  else
    match stuff fuel st1 with
    | .ok st3 => .ok (emits (strBytes ";\x7d") st3)
    | r => r

/-- `expand` from jsdev.c. -/
def expand (e : Entry) (fuel : Nat) (st : St) : R St :=
  let p := peek st
  if p.1 = 40 then
    let st1 := emits (strBytes "if ") p.2
    match condition fuel st1 with
    | .ok st2 => expandBody e fuel st2
    | r => r
  else expandBody e fuel p.2

/-- The identifier scan of `process` (jsdev.c lines 432-440): read up to
`MAX_CMD_LENGTH` identifier characters without echo.  The returned `Int`
is the value left in the C variable `c` when the loop stops: the first
non-identifier character when the loop breaks, and the last stored
character when the loop exhausts its count — that character has then been
both recorded and handed to `unget`. -/
def scanCmdAux : Nat → Int → St → List Int × Int × St
  | 0, prev, st => ([], prev, st)
  | n + 1, _, st =>
    let g := get false st
    if is_alphanum g.1 then
      let r := scanCmdAux n g.1 g.2
      (g.1 :: r.1, r.2.1, r.2.2)
    else ([], g.1, g.2)

/-- The slash-slash comment loop of `process`: echo through the line
terminator or end of input. -/
def lcLoop : Nat → St → R St
  | 0, _ => .fuel
  | n + 1, st =>
    let g := get true st
    if g.1 = 10 ∨ g.1 = 13 ∨ g.1 = EOF then .ok g.2
    else lcLoop n g.2

/-- The copy loop of `process` for a comment whose identifier matched no
table entry (jsdev.c lines 454-471): echo the body, fail on a nested
comment opening or on end of input, stop after echoing the closing
star-slash.  On entry `c` holds the character that was pushed back after
the identifier scan, so the first `get` re-fetches that same character. -/
def copyLoop : Int → Nat → St → R St
  | _, 0, _ => .fuel
  | c, n + 1, st =>
    if c = EOF then .err st.line_nr msgUntermComment
    else if c = 47 then
      let g := get true st
      if g.1 = 42 then .err g.2.line_nr msgNestedComment
      else copyLoop g.1 n g.2
    else if c = 42 then
      let g := get true st
      if g.1 = 47 then .ok g.2
      else copyLoop g.1 n g.2
    else
      let g := get true st
      copyLoop g.1 n g.2

/-- One iteration of the main loop of `process` from jsdev.c.  `c` is the
character being examined, `left` the regexp-heuristic register, `n` the
fuel handed to the sub-scanners, and `rec` the continuation that runs the
next iteration of the loop.  The two successive `peek` calls of the slash
case model `peek() == charSlash` followed by `peek() == charStar` in the
C source. -/
def processStep (table : List Entry) (rec : Int → Int → St → R St) (n : Nat)
    (c left : Int) (st : St) : R St :=
    if c = EOF then .ok st
    else if c = 39 ∨ c = 34 ∨ c = 96 then
      match string c false n (emit c st) with
      | .ok st2 => rec 0 left st2
      | r => r
    else if c = 47 then
      let p1 := peek st
      if p1.1 = 47 then
        match lcLoop n (emit 47 p1.2) with
        | .ok st2 =>
          let g := get false st2
          rec g.1 left g.2
        | r => r
      else
        let p2 := peek p1.2
        if p2.1 = 42 then
          let g0 := get false p2.2
          let r := scanCmdAux 80 0 g0.2
          let cs := r.1
          let d := r.2.1
          let st3 := unget d r.2.2
          match (if cs = [] then none else matchCmd cs table) with
          | some e =>
            match expand e n st3 with
            | .ok st4 =>
              let g := get false st4
              rec g.1 left g.2
            | r2 => r2
          | none =>
            match copyLoop d n (emits (47 :: 42 :: cs) st3) with
            | .ok st4 =>
              let g := get false st4
              rec g.1 left g.2
            | r2 => r2
        else
          let st3 := emit 47 p2.2
          if pre_regexp left then
            match regexp false n st3 with
            | .ok st4 =>
              let g := get false st4
              rec g.1 47 g.2
            | r2 => r2
          else
            let g := get false st3
            rec g.1 47 g.2
    else
      let st1 := emit c st
      let l2 := if 32 < c then c else left
      let g := get false st1
      rec g.1 l2 g.2

/-- The main loop of `process` from jsdev.c: run one `processStep` per
unit of fuel. -/
def processLoop (table : List Entry) : Int → Int → Nat → St → R St
  | _, _, 0, _ => .fuel
  | c, left, n + 1, st =>
    processStep table (fun c2 l2 s2 => processLoop table c2 l2 n s2) n c left st

/-- `process` from jsdev.c: reset the line counter, prime the first
character, run the loop with an empty left context. -/
def process (table : List Entry) (fuel : Nat) (st : St) : R St :=
  let g := get false { st with line_nr := 1 }
  processLoop table g.1 0 fuel g.2

/-- The most recent non-whitespace character of an emitted sequence,
`0` when there is none; the generic notion named by the specification's
regexp-versus-division rule. -/
def lastNonWs (l : List Int) : Int :=
  (l.filter (fun c => 32 < c)).getLastD 0

/-- Modelled from the spec (section 4.2), for comparison with
`processLoop`: the variant of the top-level scan in which the decision at
a bare slash consults the most recent non-whitespace character actually
emitted to the output so far, as the specification words it, instead of
the scanner's `left` register (which the C code does not update while
copying string literals, comments, or expansions).  Everything else is
identical to `processStep`. -/
def processStepS (table : List Entry) (rec : Int → St → R St) (n : Nat)
    (c : Int) (st : St) : R St :=
    if c = EOF then .ok st
    else if c = 39 ∨ c = 34 ∨ c = 96 then
      match string c false n (emit c st) with
      | .ok st2 => rec 0 st2
      | r => r
    else if c = 47 then
      let p1 := peek st
      if p1.1 = 47 then
        match lcLoop n (emit 47 p1.2) with
        | .ok st2 =>
          let g := get false st2
          rec g.1 g.2
        | r => r
      else
        let p2 := peek p1.2
        if p2.1 = 42 then
          let g0 := get false p2.2
          let r := scanCmdAux 80 0 g0.2
          let cs := r.1
          let d := r.2.1
          let st3 := unget d r.2.2
          match (if cs = [] then none else matchCmd cs table) with
          | some e =>
            match expand e n st3 with
            | .ok st4 =>
              let g := get false st4
              rec g.1 g.2
            | r2 => r2
          | none =>
            match copyLoop d n (emits (47 :: 42 :: cs) st3) with
            | .ok st4 =>
              let g := get false st4
              rec g.1 g.2
            | r2 => r2
        else
          let dleft := lastNonWs p2.2.out
          let st3 := emit 47 p2.2
          if pre_regexp dleft then
            match regexp false n st3 with
            | .ok st4 =>
              let g := get false st4
              rec g.1 g.2
            | r2 => r2
          else
            let g := get false st3
            rec g.1 g.2
    else
      let st1 := emit c st
      let g := get false st1
      rec g.1 g.2

/-- The scanner state at program start: `cr = false`, `line_nr = 0`. -/
def initSt (input : List Int) : St :=
  { input := input, preview := 0, cr := false, line_nr := 0, out := [] }

/-- Run the scanning pass over an input with a given command table. -/
def jsdev (table : List Entry) (input : List Int) (fuel : Nat) : R St :=
  process table fuel (initSt input)

/-- The loop of the spec-worded variant. -/
def processLoopS (table : List Entry) : Int → Nat → St → R St
  | _, 0, _ => .fuel
  | c, n + 1, st =>
    processStepS table (fun c2 s2 => processLoopS table c2 n s2) n c st

/-- The spec-worded variant run, for the comparison in claim C3. -/
def jsdevSpecC3 (table : List Entry) (input : List Int) (fuel : Nat) : R St :=
  let g := get false { initSt input with line_nr := 1 }
  processLoopS table g.1 fuel g.2

/-- Output of a successful run. -/
def runOut (r : R St) : Option (List Int) :=
  match r with
  | .ok st => some st.out
  | _ => none

/-- Diagnostic of a failed run. -/
def runErr (r : R St) : Option (Nat × String) :=
  match r with
  | .err l m => some (l, m)
  | _ => none

/-- The identifier loop of `main` (jsdev.c lines 526-531 and 541-547):
read up to `MAX_CMD_LENGTH` identifier-class characters of an argument
string (indexing past the end yields the NUL terminator, value `0`).
The returned `Int` is the value left in the C variable `c`: the first
non-identifier character on a break, and the last stored character when
the count is exhausted. -/
def idScan : Nat → Int → List Int → List Int × Int
  | 0, prev, _ => ([], prev)
  | n + 1, _, s =>
    let c := s.headD 0
    if is_alphanum c then
      let r := idScan n c s.tail
      (c :: r.1, r.2)
    else ([], c)

/-- The per-declaration parsing of `main`: a trigger of identifier-class
characters, optionally followed by a colon and a replacement name, with
`error(argv[i])` (no line number) on anything else.  `none` is that
rejection. -/
def parseDecl (s : List Int) : Option Entry :=
  let r := idScan 80 0 s
  let cs := r.1
  if cs = [] then none
  else if r.2 = 0 then some { cmd := cs, command := [] }
  else if r.2 = 58 then
    let r2 := idScan 80 0 (s.drop (cs.length + 1))
    if r2.1 = [] ∨ r2.2 ≠ 0 then none
    else some { cmd := cs, command := r2.1 }
  else none

/-- The argument loop of `main` from jsdev.c: `-comment` makes the next
argument a banner comment on the output; every other argument is a
declaration added to the command table, and a malformed one calls
`error` while `line_nr` is still `0`, observable as the bad-command-line
diagnostic with no line number. -/
def mainArgs : List (List Int) → Bool → List Entry → St → R (List Entry × St)
  | [], _, table, st => .ok (table, st)
  | a :: rest, comment, table, st =>
    if comment then
      mainArgs rest false table (emits (strBytes "// " ++ a ++ [10]) st)
    else if a = strBytes "-comment" then mainArgs rest true table st
    else
      match parseDecl a with
      | some e => mainArgs rest comment (table ++ [e]) st
      | none => .err 0 msgBadCommandLine

/-- `main` from jsdev.c: build the table from the arguments, then scan. -/
def jsdevMain (args : List (List Int)) (input : List Int) (fuel : Nat) : R St :=
  match mainArgs args false [] (initSt input) with
  | .ok (table, st) => process table fuel st
  | .err l m => .err l m
  | .fuel => .fuel

/-- Contribution of the pushback slot to the pending character stream: a
positive pushback is a character still to be read; an empty slot or a
pushed-back `EOF` contributes none. -/
def pv (p : Int) : List Int :=
  if 0 < p then [p] else []

/-- The characters still to be read in a state. -/
def avail (st : St) : List Int :=
  pv st.preview ++ st.input

/-- Well-formed scanner states during a run over NUL-free input: every
pending input byte is positive, the pushback slot never holds anything
below `EOF`, and holds `EOF` only once the input is exhausted. -/
def WF (st : St) : Prop :=
  (∀ b ∈ st.input, 0 < b) ∧ -1 ≤ st.preview ∧ (st.preview = -1 → st.input = [])

/-- Follows the spec's words for `skipString` (section 4.1), to be
compared with `strLoop`: the consumed prefix runs up to and including the
first unescaped occurrence of the quote character; a backslash escapes
the immediately following character unconditionally, so an escaped quote
does not terminate; `none` when no unescaped quote remains. -/
def skipStringSpec (q : Int) : List Int → Option (List Int × List Int)
  | [] => none
  | c :: t =>
    if c = q then some ([c], t)
    else if c = 92 then
      match t with
      | [] => none
      | d :: t2 => (skipStringSpec q t2).map (fun p => (c :: d :: p.1, p.2))
    else (skipStringSpec q t).map (fun p => (c :: p.1, p.2))

/-- Whether two given characters occur adjacently, in order, in a list:
the pair test performed by the comment copy loop, which examines each
consecutive pair of the characters it scans. -/
def hasPair (a b : Int) : List Int → Bool
  | x :: y :: t => (decide (x = a) && decide (y = b)) || hasPair a b (y :: t)
  | _ => false

/-- Fold of the line bookkeeping of `get` over a byte sequence. -/
def countLines : Bool → Nat → List Int → Bool × Nat
  | cr, n, [] => (cr, n)
  | cr, n, c :: t => countLines (lineStep cr n c).1 (lineStep cr n c).2 t

/-- Declarative terminator count: one for every CR, plus one for every LF
not immediately preceded by a CR; `prev` is the character preceding the
list. -/
def crCount : Int → List Int → Nat
  | _, [] => 0
  | prev, c :: t =>
    (if c = 13 ∨ (c = 10 ∧ prev ≠ 13) then 1 else 0) + crCount c t

/-- Each line followed by one copy of the given terminator. -/
def joinT (term : List Int) : List (List Int) → List Int
  | [] => []
  | a :: r => a ++ term ++ joinT term r

/-- Bytes that take the plain-echo branch of the top-level scanner:
positive and neither a quote character nor a slash. -/
def plainChar (c : Int) : Prop :=
  0 < c ∧ c ≠ 39 ∧ c ≠ 34 ∧ c ≠ 96 ∧ c ≠ 47

instance (c : Int) : Decidable (plainChar c) := by
  unfold plainChar; infer_instance

/-- Scanning predicate used to state the C2 side condition: true when
the list contains a run of 80 consecutive identifier-class characters
(the accumulator counts the current run). -/
def alphaRuns : List Int → Nat → Bool
  | [], _ => false
  | b :: t, k =>
    if is_alphanum b then
      if k + 1 = 80 then true else alphaRuns t (k + 1)
    else alphaRuns t 0


theorem avail_pos (st : St) (hw : WF st) : ∀ b ∈ avail st, 0 < b := by
  obtain ⟨h1, h2, h3⟩ := hw
  intro b hb
  unfold avail pv at hb
  rcases List.mem_append.mp hb with h | h
  · split at h
    · simp at h; omega
    · simp at h
  · exact h1 b h

theorem WF_mk (t : List Int) (c : Bool) (ln : Nat) (o : List Int)
    (ht : ∀ b ∈ t, 0 < b) : WF ⟨t, 0, c, ln, o⟩ := by
  exact ⟨ht, by norm_num, by simp⟩

theorem avail_mk0 (t : List Int) (c : Bool) (ln : Nat) (o : List Int) :
    avail ⟨t, 0, c, ln, o⟩ = t := by
  simp [avail, pv]

theorem get_eq_pop (e : Bool) (b : Int) (t : List Int) (sc : Bool) (sl : Nat)
    (so : List Int) (hb : 0 < b) :
    get e ⟨b :: t, 0, sc, sl, so⟩ =
      (b, ⟨t, 0, (lineStep sc sl b).1, (lineStep sc sl b).2,
        so ++ if e then [b] else []⟩) := by
  have hb2 : ¬ (b ≤ 0) := by omega
  have hb3 : 0 < b := hb
  cases e <;> simp [get, emit, hb2, hb3]

theorem get_eq_preview (e : Bool) (p : Int) (si : List Int) (sc : Bool) (sl : Nat)
    (so : List Int) (hp : 0 < p) :
    get e ⟨si, p, sc, sl, so⟩ =
      (p, ⟨si, 0, (lineStep sc sl p).1, (lineStep sc sl p).2,
        so ++ if e then [p] else []⟩) := by
  have hp0 : ¬ (p = 0) := by omega
  have hp2 : ¬ (p ≤ 0) := by omega
  cases e <;> simp [get, emit, hp0, hp2, hp]

theorem get_cons (e : Bool) (st : St) (b : Int) (t : List Int) (hw : WF st)
    (h : avail st = b :: t) :
    0 < b ∧ get e st = (b,
      ⟨t, 0, (lineStep st.cr st.line_nr b).1, (lineStep st.cr st.line_nr b).2,
        st.out ++ if e then [b] else []⟩) := by
  have hb : 0 < b := avail_pos st hw b (by rw [h]; simp)
  refine ⟨hb, ?_⟩
  obtain ⟨si, sp, sc, sl, so⟩ := st
  obtain ⟨h1, h2, h3⟩ := hw
  simp only [avail, pv] at h
  by_cases hp : sp = 0
  · subst hp
    rw [if_neg (by norm_num : ¬ (0:Int) < 0), List.nil_append] at h
    subst h
    exact get_eq_pop e b t sc sl so hb
  · have hppos : 0 < sp := by
      rcases lt_trichotomy sp 0 with hlt | heq | hgt
      · exfalso
        have h2b : -1 ≤ sp := h2
        have hsp : sp = -1 := by omega
        have hnil : si = [] := h3 hsp
        rw [hsp, hnil] at h
        simp at h
      · exact absurd heq hp
      · exact hgt
    rw [if_pos hppos] at h
    simp only [List.cons_append, List.nil_append, List.cons.injEq] at h
    obtain ⟨hb2, ht⟩ := h
    subst hb2; subst ht
    exact get_eq_preview e sp si sc sl so hppos

theorem get_nil (e : Bool) (st : St) (hw : WF st) (h : avail st = []) :
    get e st = (-1, { st with preview := 0 }) := by
  obtain ⟨si, sp, sc, sl, so⟩ := st
  obtain ⟨h1, h2, h3⟩ := hw
  simp only [avail, pv] at h
  rcases List.append_eq_nil.mp h with ⟨hl, hr⟩
  have hnil : si = [] := hr
  subst hnil
  split at hl
  · simp at hl
  · have h2b : -1 ≤ sp := h2
    rename_i hnot
    have hsp : sp = 0 ∨ sp = -1 := by omega
    rcases hsp with hsp | hsp <;> subst hsp <;> simp [get, EOF]

theorem peek_cons (st : St) (b : Int) (t : List Int) (hw : WF st)
    (h : avail st = b :: t) :
    0 < b ∧ peek st = (b, ⟨t, b, st.cr, st.line_nr, st.out⟩) := by
  have hb : 0 < b := avail_pos st hw b (by rw [h]; simp)
  refine ⟨hb, ?_⟩
  obtain ⟨si, sp, sc, sl, so⟩ := st
  obtain ⟨h1, h2, h3⟩ := hw
  simp only [avail, pv] at h
  by_cases hp : sp = 0
  · subst hp
    rw [if_neg (by norm_num : ¬ (0:Int) < 0), List.nil_append] at h
    subst h
    simp [peek]
  · have hppos : 0 < sp := by
      rcases lt_trichotomy sp 0 with hlt | heq | hgt
      · exfalso
        have h2b : -1 ≤ sp := h2
        have hsp : sp = -1 := by omega
        have hnil : si = [] := h3 hsp
        rw [hsp, hnil] at h
        simp at h
      · exact absurd heq hp
      · exact hgt
    rw [if_pos hppos] at h
    simp only [List.cons_append, List.nil_append, List.cons.injEq] at h
    obtain ⟨hb2, ht⟩ := h
    subst hb2; subst ht
    have hp2 : ¬ (sp = 0) := by omega
    simp [peek, hp2]

theorem peek_nil (st : St) (hw : WF st) (h : avail st = []) :
    peek st = (-1, { st with preview := -1 }) := by
  obtain ⟨si, sp, sc, sl, so⟩ := st
  obtain ⟨h1, h2, h3⟩ := hw
  simp only [avail, pv] at h
  rcases List.append_eq_nil.mp h with ⟨hl, hr⟩
  have hnil : si = [] := hr
  subst hnil
  split at hl
  · simp at hl
  · have h2b : -1 ≤ sp := h2
    rename_i hnot
    have hsp : sp = 0 ∨ sp = -1 := by omega
    rcases hsp with hsp | hsp <;> subst hsp <;> simp [peek, EOF]

/-- Claim C1 (counterexample): for the spec's first expansion example —
table entry `log:console.log`, input comment slash-star `log "hi"`
star-slash — the program does not produce the literal output
`{console.log("hi");}` that the claim states: the separator blank after
the trigger is part of the stuff body, so the actual output is
`{console.log( "hi");}`. -/
theorem C1_counterexample :
    runOut (jsdev [{ cmd := strBytes "log", command := strBytes "console.log" }]
        (strBytes "/*log \"hi\"*/") 100) =
      some (strBytes "\x7bconsole.log( \"hi\");\x7d") ∧
    strBytes "\x7bconsole.log( \"hi\");\x7d" ≠
      strBytes "\x7bconsole.log(\"hi\");\x7d" := by
  exact ⟨by decide, by decide⟩

/-- Claim C1 (amended): the four expansion shapes produce exactly the
literal outputs of the code: the character that terminates the trigger
identifier (here the blank) is consumed as the first character of the
stuff body and is echoed inside the braces, and no blank is inserted
between a condition and the opening brace.  So `/*log "hi"*/` gives
`{console.log( "hi");}`, `/*debug x=1*/` gives `{ x=1;}`,
`/*alarm(x>0) "go"*/` gives `if (x>0){alert( "go");}`, and
`/*debug(x) y*/` gives `if (x){ y;}`. -/
theorem C1_amended :
    runOut (jsdev [{ cmd := strBytes "log", command := strBytes "console.log" }]
        (strBytes "/*log \"hi\"*/") 100) =
      some (strBytes "\x7bconsole.log( \"hi\");\x7d") ∧
    runOut (jsdev [{ cmd := strBytes "debug", command := [] }]
        (strBytes "/*debug x=1*/") 100) = some (strBytes "\x7b x=1;\x7d") ∧
    runOut (jsdev [{ cmd := strBytes "alarm", command := strBytes "alert" }]
        (strBytes "/*alarm(x>0) \"go\"*/") 100) =
      some (strBytes "if (x>0)\x7balert( \"go\");\x7d") ∧
    runOut (jsdev [{ cmd := strBytes "debug", command := [] }]
        (strBytes "/*debug(x) y*/") 100) = some (strBytes "if (x)\x7b y;\x7d") := by
  exact ⟨by decide, by decide, by decide, by decide⟩

/-- Claim C2 (counterexample): an input whose slash-star comment carries
an identifier of exactly 80 characters contains no trigger of the (empty)
command table, yet its 80th identifier character is emitted twice — the
identifier scan stores the character and then ungets it, so the copy loop
re-reads it — and the output is one byte longer than the input. -/
theorem C2_counterexample :
    runOut (jsdev [] (strBytes "/*" ++ List.replicate 80 97 ++ strBytes "*/") 400) =
      some (strBytes "/*" ++ List.replicate 81 97 ++ strBytes "*/") ∧
    (strBytes "/*" ++ List.replicate 81 97 ++ strBytes "*/" : List Int) ≠
      strBytes "/*" ++ List.replicate 80 97 ++ strBytes "*/" := by
  exact ⟨by decide, by decide⟩

/-- Claim C3 (counterexample): on the input `="s"/ ` followed by a
backtick-quoted fragment, the most recent non-whitespace character
emitted to the left of the slash is the closing double quote, which is
not in the regexp-context set, so the claim's rule makes the slash a
division operator and the following backtick would open a string (failing
as an unterminated string).  The program instead consults its stale
`left` register, still `=` from before the string literal, and enters
regexp-skip mode, failing with the unterminated-regexp diagnostic.  The
spec-worded variant `jsdevSpecC3`, identical except for following the
claim's rule, shows the divergence. -/
theorem C3_counterexample :
    runErr (jsdev [] (strBytes "=\"s\"/ " ++ [96, 97]) 100) =
      some (1, msgUntermRegexp) ∧
    runErr (jsdevSpecC3 [] (strBytes "=\"s\"/ " ++ [96, 97]) 100) =
      some (1, msgUntermString) ∧
    msgUntermRegexp ≠ msgUntermString := by
  exact ⟨by decide, by decide, by decide⟩

/-- Claim C4 (counterexample): a condition opened on line 1 and truncated
by end of input on line 2 is reported at line 2, where the end of input
was reached, not at line 1 where the construct opened: `condition` saves
no entry line number. -/
theorem C4_counterexample :
    runErr (jsdev [{ cmd := strBytes "debug", command := [] }]
        (strBytes "/*debug(" ++ [10]) 100) = some (2, msgUntermCondition) ∧
    (2 : Nat) ≠ 1 := by
  exact ⟨by decide, by decide⟩

/-- Claim C8 (counterexample): a declaration whose trigger is exactly 80
identifier-class characters is rejected, because the identifier loop of
`main` exhausts its count with `c` still holding the last stored
character, which is neither the `NUL` of a bare declaration nor a colon.
Accepted triggers have at most 79 characters. -/
theorem C8_counterexample :
    parseDecl (List.replicate 80 97) = none ∧
    (List.replicate 80 (97 : Int)).length = 80 ∧
    (∀ c ∈ List.replicate 80 (97 : Int), is_alphanum c) := by
  exact ⟨by decide, by decide, by decide⟩

/-- Claim C9 (counterexample): a NUL byte inside a slash-slash comment
ends the comment like end of input, but the loop that skips the comment
then fetches the next character and normal scanning resumes, so the `b`
after the NUL is read and emitted: the output is `//ab`, not `//a`. -/
theorem C9_counterexample :
    runOut (jsdev [] (strBytes "//a" ++ [0] ++ strBytes "b") 100) =
      some (strBytes "//ab") ∧
    (strBytes "//ab" : List Int) ≠ strBytes "//a" := by
  exact ⟨by decide, by decide⟩


theorem C10_escape_no_shield : ∀ (q : Int) (was n : Nat) (sc : Bool) (sl : Nat)
    (so rest : List Int), q ≠ 92 →
    strLoop q true was (n + 1) ⟨92 :: 42 :: 47 :: rest, 0, sc, sl, so⟩ =
      .err sl msgCloseInString ∧
    rexLoop true was (n + 1) ⟨92 :: 42 :: 47 :: rest, 0, sc, sl, so⟩ =
      .err sl msgUnexpComment ∧
    rexClass true (n + 1) ⟨92 :: 42 :: 47 :: rest, 0, sc, sl, so⟩ =
      .err sl msgCloseInRegexp := by
  intro q was n sc sl so rest hq
  have hq2 : ¬ ((92 : Int) = q) := fun h => hq h.symm
  refine ⟨?_, ?_, ?_⟩ <;>
    simp [strLoop, rexLoop, rexClass, get, peek, emit, lineStep, hq2, EOF]

theorem C10_witness :
    (34 : Int) ≠ 92 ∧
    strLoop 34 true 7 5 ⟨[92, 42, 47, 98], 0, false, 7, []⟩ =
      .err 7 msgCloseInString := by
  exact ⟨by decide, (C10_escape_no_shield 34 7 4 false 7 [] [98] (by decide)).1⟩

theorem rexClass_err_msg : ∀ (inC : Bool) (n : Nat) (st : St) (l : Nat) (m : String),
    rexClass inC n st = .err l m → m = msgCloseInRegexp ∨ m = msgUntermSet := by
  intro inC n
  induction n with
  | zero => intro st l m h; exact R.noConfusion h
  | succ n ih =>
    intro st l m h
    simp only [rexClass] at h
    repeat' split at h
    all_goals
      first
        | exact R.noConfusion h
        | exact ih _ _ _ h
        | (injection h with h1 h2
           first
             | exact Or.inl h2.symm
             | exact Or.inr h2.symm)

theorem strLoop_unterm_line : ∀ (q : Int) (inC : Bool) (was n : Nat) (st : St) (l : Nat),
    strLoop q inC was n st = .err l msgUntermString → l = was := by
  intro q inC was n
  induction n with
  | zero => intro st l h; exact R.noConfusion h
  | succ n ih =>
    intro st l h
    simp only [strLoop] at h
    repeat' split at h
    all_goals
      first
        | exact R.noConfusion h
        | exact ih _ _ h
        | (injection h with h1 h2
           first
             | exact absurd h2 (by decide)
             | exact h1.symm)

theorem rexLoop_unterm_line : ∀ (inC : Bool) (was n : Nat) (st : St) (l : Nat),
    rexLoop inC was n st = .err l msgUntermRegexp → l = was := by
  intro inC was n
  induction n with
  | zero => intro st l h; exact R.noConfusion h
  | succ n ih =>
    intro st l h
    simp only [rexLoop] at h
    by_cases h91 : (get true st).1 = 91
    · simp only [if_pos h91] at h
      cases hcl : rexClass inC n (get true st).2 with
      | ok st2 =>
        rw [hcl] at h
        exact ih _ _ h
      | err l2 m2 =>
        rw [hcl] at h
        injection h with h1 h2
        rcases rexClass_err_msg _ _ _ _ _ hcl with hm | hm <;> rw [h2] at hm <;>
          exact absurd hm (by decide)
      | fuel =>
        rw [hcl] at h
        exact R.noConfusion h
    · simp only [if_neg h91] at h
      repeat' split at h
      all_goals
        first
          | exact R.noConfusion h
          | exact ih _ _ h
          | (injection h with h1 h2
             first
               | exact absurd h2 (by decide)
               | exact h1.symm)

theorem idScan_exact : ∀ (t s : List Int) (n : Nat) (p : Int),
    (∀ c ∈ t, is_alphanum c) → t.length < n → ¬ is_alphanum (s.headD 0) →
    idScan n p (t ++ s) = (t, s.headD 0) := by
  intro t
  induction t with
  | nil =>
    intro s n p _ hn hs
    match n, hn with
    | n + 1, _ =>
      simp only [List.nil_append, idScan]
      rw [if_neg hs]
  | cons x t ih =>
    intro s n p hal hn hs
    match n, hn with
    | n + 1, hn =>
      simp only [List.cons_append, idScan, List.headD_cons, List.tail_cons]
      rw [if_pos (hal x (by simp))]
      rw [ih s n x (fun c hc => hal c (by simp [hc])) (by simpa using hn) hs]

theorem parseDecl_bare : ∀ t : List Int, (∀ c ∈ t, is_alphanum c) →
    1 ≤ t.length → t.length ≤ 79 → parseDecl t = some ⟨t, []⟩ := by
  intro t hal h1 h2
  have h := idScan_exact t [] 80 0 hal (by omega) (by decide)
  rw [List.append_nil] at h
  have ht : ¬ (t = []) := by
    intro hh; rw [hh] at h1; simp at h1
  simp [parseDecl, h, ht]

theorem parseDecl_colon : ∀ t r : List Int, (∀ c ∈ t, is_alphanum c) →
    (∀ c ∈ r, is_alphanum c) → 1 ≤ t.length → t.length ≤ 79 →
    1 ≤ r.length → r.length ≤ 79 →
    parseDecl (t ++ 58 :: r) = some ⟨t, r⟩ := by
  intro t r hat har h1 h2 h3 h4
  have hh : idScan 80 0 (t ++ 58 :: r) = (t, 58) := by
    have := idScan_exact t (58 :: r) 80 0 hat (by omega)
      (by rw [List.headD_cons]; decide)
    simpa using this
  have hr : idScan 80 0 r = (r, 0) := by
    have := idScan_exact r [] 80 0 har (by omega) (by decide)
    rwa [List.append_nil] at this
  have hdrop : (t ++ 58 :: r).drop (t.length + 1) = r := by
    have he : t ++ 58 :: r = (t ++ [58]) ++ r := by simp
    rw [he]
    have hlen : (t ++ [58]).length = t.length + 1 := by simp
    rw [← hlen, List.drop_left]
  have ht : ¬ (t = []) := by
    intro hh2; rw [hh2] at h1; simp at h1
  have hrne : ¬ (r = []) := by
    intro hh2; rw [hh2] at h3; simp at h3
  simp [parseDecl, hh, ht, hdrop, hr, hrne]

theorem mainArgs_reject : ∀ (a : List Int) (args : List (List Int))
    (input : List Int) (fuel : Nat),
    parseDecl a = none → a ≠ strBytes "-comment" →
    jsdevMain (a :: args) input fuel = .err 0 msgBadCommandLine := by
  intro a args input fuel hp hc
  simp [jsdevMain, mainArgs, hp, hc]

theorem countLines_crCount : ∀ (l : List Int) (cr : Bool) (prev : Int) (n : Nat),
    (cr = true ↔ prev = 13) → (countLines cr n l).2 = n + crCount prev l := by
  intro l
  induction l with
  | nil => intro cr prev n _; simp [countLines, crCount]
  | cons c t ih =>
    intro cr prev n hiff
    simp only [countLines, crCount]
    by_cases h13 : c = 13
    · subst h13
      rw [show lineStep cr n 13 = (true, n + 1) by simp [lineStep]]
      rw [ih true 13 (n + 1) (by simp)]
      rw [if_pos (Or.inl rfl)]
      omega
    · by_cases h10 : c = 10
      · subst h10
        cases hcr : cr
        · rw [show lineStep false n 10 = (false, n + 1) by simp [lineStep]]
          rw [ih false 10 (n + 1) (by simp)]
          have hprev : ¬ (prev = 13) := by
            intro hp; exact absurd (hiff.mpr hp) (by simp [hcr])
          rw [if_pos (Or.inr ⟨rfl, hprev⟩)]
          omega
        · rw [show lineStep true n 10 = (false, n) by simp [lineStep]]
          rw [ih false 10 n (by simp)]
          have hprev : prev = 13 := hiff.mp hcr
          rw [if_neg (by simp [hprev])]
          omega
      · rw [show lineStep cr n c = (false, n) by simp [lineStep, h13, h10]]
        rw [ih false c n (by simp [h13])]
        rw [if_neg (by simp [h13, h10])]
        omega

theorem crCount_clean_append : ∀ (ln : List Int) (prev : Int) (x : List Int),
    (∀ c ∈ ln, c ≠ 13 ∧ c ≠ 10) →
    ∃ p2, (p2 = prev ∨ p2 ∈ ln) ∧ crCount prev (ln ++ x) = crCount p2 x := by
  intro ln
  induction ln with
  | nil => intro prev x _; exact ⟨prev, Or.inl rfl, rfl⟩
  | cons c t ih =>
    intro prev x hcl
    have hc := hcl c (by simp)
    simp only [List.cons_append, crCount]
    rw [if_neg (by simp [hc.1, hc.2])]
    obtain ⟨p2, hp2, he⟩ := ih c x (fun d hd => hcl d (by simp [hd]))
    refine ⟨p2, ?_, by simpa using he⟩
    rcases hp2 with h | h
    · exact Or.inr (by simp [h])
    · exact Or.inr (by simp [h])

theorem crCount_joinCRLF : ∀ (lines : List (List Int)) (prev : Int),
    (∀ ln ∈ lines, ∀ c ∈ ln, c ≠ 13 ∧ c ≠ 10) →
    crCount prev (joinT [13, 10] lines) = lines.length := by
  intro lines
  induction lines with
  | nil => intro prev _; simp [joinT, crCount]
  | cons a r ih =>
    intro prev hcl
    simp only [joinT]
    obtain ⟨p2, _, he⟩ :=
      crCount_clean_append a prev ([13, 10] ++ joinT [13, 10] r) (hcl a (by simp))
    rw [List.append_assoc, he]
    have hr := ih 10 (fun ln hln => hcl ln (by simp [hln]))
    simp [crCount, hr]
    omega

theorem crCount_joinLF : ∀ (lines : List (List Int)) (prev : Int), prev ≠ 13 →
    (∀ ln ∈ lines, ∀ c ∈ ln, c ≠ 13 ∧ c ≠ 10) →
    crCount prev (joinT [10] lines) = lines.length := by
  intro lines
  induction lines with
  | nil => intro prev _ _; simp [joinT, crCount]
  | cons a r ih =>
    intro prev hp hcl
    simp only [joinT]
    obtain ⟨p2, hp2, he⟩ :=
      crCount_clean_append a prev ([10] ++ joinT [10] r) (hcl a (by simp))
    rw [List.append_assoc, he]
    have hp2ne : p2 ≠ 13 := by
      rcases hp2 with h | h
      · rw [h]; exact hp
      · exact (hcl a (by simp) p2 h).1
    have hr := ih 10 (by decide) (fun ln hln => hcl ln (by simp [hln]))
    simp [crCount, hr, hp2ne]
    omega

theorem crCount_joinCR : ∀ (lines : List (List Int)) (prev : Int),
    (∀ ln ∈ lines, ∀ c ∈ ln, c ≠ 13 ∧ c ≠ 10) →
    crCount prev (joinT [13] lines) = lines.length := by
  intro lines
  induction lines with
  | nil => intro prev _; simp [joinT, crCount]
  | cons a r ih =>
    intro prev hcl
    simp only [joinT]
    obtain ⟨p2, _, he⟩ :=
      crCount_clean_append a prev ([13] ++ joinT [13] r) (hcl a (by simp))
    rw [List.append_assoc, he]
    have hr := ih 13 (fun ln hln => hcl ln (by simp [hln]))
    simp [crCount, hr]
    omega

theorem processLoop_succ (table : List Entry) (c left : Int) (n : Nat) (st : St) :
    processLoop table c left (n + 1) st =
      processStep table (fun c2 l2 s2 => processLoop table c2 l2 n s2) n c left st := by
  rw [processLoop]

theorem procEOF : ∀ (table : List Entry) (left : Int) (n : Nat) (st st2 : St),
    processLoop table (-1) left n st = .ok st2 → st2 = st := by
  intro table left n st st2 h
  cases n with
  | zero => exact R.noConfusion h
  | succ n =>
    rw [processLoop_succ] at h
    rw [show (processStep table (fun c2 l2 s2 => processLoop table c2 l2 n s2) n
      (-1) left st) = .ok st from by rw [processStep]; rfl] at h
    injection h with h1
    exact h1.symm

theorem C9_plainAux : ∀ (n : Nat) (a b : List Int) (table : List Entry)
    (c left : Int) (sc : Bool) (sl : Nat) (so : List Int) (st2 : St),
    plainChar c → (∀ x ∈ a, plainChar x) →
    processLoop table c left n ⟨a ++ 0 :: b, 0, sc, sl, so⟩ = .ok st2 →
    st2.out = so ++ c :: a := by
  intro n
  induction n with
  | zero => intro a b table c left sc sl so st2 _ _ h; exact R.noConfusion h
  | succ n ih =>
    intro a b table c left sc sl so st2 hc hpl h
    obtain ⟨hc0, hc39, hc34, hc96, hc47⟩ := hc
    rw [processLoop_succ] at h
    rw [processStep] at h
    rw [if_neg (show ¬ c = EOF by simp only [EOF]; omega)] at h
    rw [if_neg (by tauto : ¬ (c = 39 ∨ c = 34 ∨ c = 96))] at h
    rw [if_neg hc47] at h
    simp only [] at h
    rw [show emit c ⟨a ++ 0 :: b, 0, sc, sl, so⟩ =
      ⟨a ++ 0 :: b, 0, sc, sl, so ++ [c]⟩ by simp [emit, hc0]] at h
    cases a with
    | nil =>
      rw [show get false ⟨[] ++ 0 :: b, 0, sc, sl, so ++ [c]⟩ =
        (-1, ⟨b, 0, sc, sl, so ++ [c]⟩) by simp [get, EOF]] at h
      have hst := procEOF table _ n _ _ h
      simp [hst]
    | cons x a2 =>
      have hx := hpl x (by simp)
      have hx0 : 0 < x := hx.1
      rw [List.cons_append] at h
      rw [get_eq_pop false x (a2 ++ 0 :: b) sc sl (so ++ [c]) hx0] at h
      simp only [List.append_nil, Bool.false_eq_true, if_false] at h
      have hres := ih a2 b table x (if 32 < c then c else left)
        (lineStep sc sl x).1 (lineStep sc sl x).2 (so ++ [c]) st2 hx
        (fun y hy => hpl y (by simp [hy])) h
      rw [hres]
      simp

/-- Claim C3 (amended): a bare slash in the top-level scan enters
regexp-skip mode exactly when the scanner's `left` register holds one of
`( , = : [ ! & | ? { } ;` — the register being the most recent
non-whitespace character examined by the top-level loop itself, which is
not updated while string literals, comments, or expansions are being
copied.  Concretely, after an emitted `=` a slash starts a regexp (the
truncated regexp diagnostic shows regexp mode was entered), and after an
identifier character it is a division operator (the input passes
through). -/
theorem C3_amended :
    (∀ c : Int, pre_regexp c ↔
      c ∈ ([40, 44, 61, 58, 91, 33, 38, 124, 63, 123, 125, 59] : List Int)) ∧
    runErr (jsdev [] (strBytes "=/ ") 100) = some (1, msgUntermRegexp) ∧
    runOut (jsdev [] (strBytes "a/ b") 100) = some (strBytes "a/ b") := by
  refine ⟨fun c => ?_, by decide, by decide⟩
  simp [pre_regexp]

/-- Witness for C3: both directions of the characterization at concrete
characters. -/
theorem C3_witness : pre_regexp 40 ∧ ¬ pre_regexp 34 := by
  constructor
  · exact (C3_amended.1 40).mpr (by decide)
  · intro hx
    exact absurd ((C3_amended.1 34).mp hx) (by decide)

/-- Claim C4 (amended): the unterminated-string and unterminated-regexp
diagnostics cite the line `was` saved when the construct opened; the
condition and macro-body scanners save no such line, so their
unterminated-construct diagnostics cite the line where end of input was
reached — concretely, a macro body opened on line 1 and truncated on
line 2 is reported at line 2. -/
theorem C4_amended :
    (∀ (q : Int) (inC : Bool) (was n : Nat) (st : St) (l : Nat),
      strLoop q inC was n st = .err l msgUntermString → l = was) ∧
    (∀ (inC : Bool) (was n : Nat) (st : St) (l : Nat),
      rexLoop inC was n st = .err l msgUntermRegexp → l = was) ∧
    runErr (jsdev [{ cmd := strBytes "debug", command := [] }]
        (strBytes "/*debug x" ++ [10]) 100) = some (2, msgUntermStuff) := by
  exact ⟨strLoop_unterm_line, rexLoop_unterm_line, by decide⟩

/-- Witness for C4: a concrete string literal opened on line 7 of its
state and truncated by end of input two characters later is reported at
line 7. -/
theorem C4_witness :
    strLoop 34 false 7 5 ⟨[97], 0, false, 9, []⟩ = .err 7 msgUntermString ∧
    (7 : Nat) = 7 := by
  exact ⟨by decide, C4_amended.1 34 false 7 5 ⟨[97], 0, false, 9, []⟩ 7 (by decide)⟩

/-- Claim C7 (confirmed): the character fetch updates the line counter by
`lineStep` — CR counts a line and sets the flag, LF counts only when the
flag is clear, every other character clears the flag — so folding the
fetch over any byte sequence counts exactly one line per terminator with
CR-LF counted once, and CRLF-, LF-only- and CR-only-terminated variants
of the same logical lines yield the same count. -/
theorem C7_lineCount :
    (∀ (e : Bool) (st : St) (b : Int) (t : List Int), st.preview = 0 →
      st.input = b :: t → 0 < b →
      ((get e st).2.cr, (get e st).2.line_nr) = lineStep st.cr st.line_nr b) ∧
    (∀ (l : List Int) (n : Nat), (countLines false n l).2 = n + crCount 0 l) ∧
    (∀ lines : List (List Int), (∀ ln ∈ lines, ∀ c ∈ ln, c ≠ 13 ∧ c ≠ 10) →
      crCount 0 (joinT [13, 10] lines) = lines.length ∧
      crCount 0 (joinT [10] lines) = lines.length ∧
      crCount 0 (joinT [13] lines) = lines.length) := by
  refine ⟨?_, ?_, ?_⟩
  · intro e st b t hp hi hb
    obtain ⟨si, sp, sc, sl, so⟩ := st
    have hp2 : sp = 0 := hp
    have hi2 : si = b :: t := hi
    subst hp2; subst hi2
    rw [get_eq_pop e b t sc sl so hb]
  · intro l n
    exact countLines_crCount l false 0 n (by simp)
  · intro lines hcl
    exact ⟨crCount_joinCRLF lines 0 hcl, crCount_joinLF lines 0 (by decide) hcl,
      crCount_joinCR lines 0 hcl⟩

/-- Witness for C7: two logical lines, counted identically in all three
terminator styles. -/
theorem C7_witness :
    crCount 0 (joinT [13, 10] [[97], [98]]) = 2 ∧
    crCount 0 (joinT [10] [[97], [98]]) = 2 ∧
    crCount 0 (joinT [13] [[97], [98]]) = 2 := by
  exact C7_lineCount.2.2 [[97], [98]] (by decide)

/-- Claim C8 (amended): a declaration whose trigger is 1 to 79
identifier-class characters, optionally followed by a colon and a
replacement name of 1 to 79 identifier-class characters, is accepted into
the command table (an 80-character field is rejected, see the
counterexample); any declaration the parser rejects makes the whole run
fail before any input is scanned, with the no-line-number bad-command-line
diagnostic. -/
theorem C8_amended :
    (∀ t : List Int, (∀ c ∈ t, is_alphanum c) → 1 ≤ t.length → t.length ≤ 79 →
      parseDecl t = some ⟨t, []⟩) ∧
    (∀ t r : List Int, (∀ c ∈ t, is_alphanum c) → (∀ c ∈ r, is_alphanum c) →
      1 ≤ t.length → t.length ≤ 79 → 1 ≤ r.length → r.length ≤ 79 →
      parseDecl (t ++ 58 :: r) = some ⟨t, r⟩) ∧
    (∀ (a : List Int) (args : List (List Int)) (input : List Int) (fuel : Nat),
      parseDecl a = none → a ≠ strBytes "-comment" →
      jsdevMain (a :: args) input fuel = .err 0 msgBadCommandLine) := by
  exact ⟨parseDecl_bare, parseDecl_colon, mainArgs_reject⟩

/-- Witness for C8: the declaration `log:console.log` enters the table,
and the malformed declaration `a-b` is rejected with no line number. -/
theorem C8_witness :
    parseDecl (strBytes "log" ++ 58 :: strBytes "console.log") =
      some ⟨strBytes "log", strBytes "console.log"⟩ ∧
    jsdevMain [strBytes "a-b"] (strBytes "zz") 9 = .err 0 msgBadCommandLine := by
  refine ⟨C8_amended.2.1 (strBytes "log") (strBytes "console.log")
    (by decide) (by decide) (by decide) (by decide) (by decide) (by decide), ?_⟩
  exact C8_amended.2.2 (strBytes "a-b") [] (strBytes "zz") 9 (by decide) (by decide)

/-- Claim C9 (amended): a NUL byte is consumed wherever it is read and
`get` reports it as end of input, but it is not a hard end of input.
Where the very next read decides the outcome, the NUL acts like physical
end of input: a top-level scan over plain characters stops at the NUL
and emits exactly the prefix before it, and inside a string literal a
NUL raises the same unterminated-string diagnostic, at the same line, as
the empty input does.  But every reader that keeps going after an
end-of-input report resumes with the byte after the NUL: the line-comment
loop does (see the counterexample), the two peeks of the slash branch do
(a NUL between `/` and `*` still opens a comment: `/ NUL *x*/` emits
`/*x*/`), and the star-peek loop of a macro body silently swallows a
mid-body NUL, so `/*debug a NUL b*/` expands successfully to `{ ab;}`
with the byte after the NUL read and emitted; only a NUL at the very end
of a macro body raises the unterminated-stuff error. -/
theorem C9_amended :
    (∀ (table : List Entry) (a b : List Int) (n : Nat) (st2 : St),
      (∀ x ∈ a, plainChar x) →
      jsdev table (a ++ 0 :: b) n = .ok st2 → st2.out = a) ∧
    (∀ (q : Int) (was n : Nat) (rest so : List Int) (sc : Bool) (sl : Nat), 0 < q →
      strLoop q false was (n + 1) ⟨0 :: rest, 0, sc, sl, so⟩ =
        .err was msgUntermString ∧
      strLoop q false was (n + 1) ⟨[], 0, sc, sl, so⟩ =
        .err was msgUntermString) ∧
    runOut (jsdev [Entry.mk (strBytes "debug") []]
      (strBytes "/*debug a" ++ [0] ++ strBytes "b*/") 100) =
        some (strBytes "\x7b ab;\x7d") ∧
    runOut (jsdev [] (strBytes "/" ++ [0] ++ strBytes "*x*/") 100) =
      some (strBytes "/*x*/") ∧
    runErr (jsdev [Entry.mk (strBytes "debug") []]
      (strBytes "/*debug a" ++ [0]) 100) = some (1, msgUntermStuff) := by
  refine ⟨?_, ?_, by decide, by decide, by decide⟩
  · intro table a b n st2 hpl h
    rw [show jsdev table (a ++ 0 :: b) n =
      processLoop table (get false ⟨a ++ 0 :: b, 0, false, 1, []⟩).1 0 n
        (get false ⟨a ++ 0 :: b, 0, false, 1, []⟩).2 from by
        rw [jsdev, process]; rfl] at h
    cases a with
    | nil =>
      rw [show get false ⟨[] ++ 0 :: b, 0, false, 1, []⟩ =
        (-1, ⟨b, 0, false, 1, []⟩) by simp [get, EOF]] at h
      have hst := procEOF table _ n _ _ h
      simp [hst]
    | cons x a2 =>
      have hx := hpl x (by simp)
      rw [List.cons_append] at h
      rw [get_eq_pop false x (a2 ++ 0 :: b) false 1 [] hx.1] at h
      simp only [List.nil_append, Bool.false_eq_true, if_false] at h
      have := C9_plainAux n a2 b table x 0 (lineStep false 1 x).1
        (lineStep false 1 x).2 [] st2 hx (fun y hy => hpl y (by simp [hy])) h
      simpa using this
  · intro q was n rest so sc sl hq
    have hq2 : ¬ ((-1 : Int) = q) := by omega
    constructor <;>
      simp [strLoop, get, EOF, hq2]

/-- Witness for C9: the run over `ab` NUL `c` emits exactly `ab`. -/
theorem C9_witness :
    jsdev [] (strBytes "ab" ++ 0 :: strBytes "c") 9 =
      .ok ⟨strBytes "c", 0, false, 1, strBytes "ab"⟩ ∧
    (⟨strBytes "c", 0, false, 1, strBytes "ab"⟩ : St).out = strBytes "ab" := by
  refine ⟨by decide, C9_amended.1 [] (strBytes "ab") (strBytes "c") 9 _
    (by decide) (by decide)⟩


/-- Claim C5 (confirmed): over NUL-free input, the string skipper
consumes and echoes exactly the prefix described by `skipStringSpec` —
up to and including the first unescaped occurrence of the quote
character, where a backslash escapes the immediately following character
unconditionally (including a backslash or the quote itself), so an
escaped quote never terminates — leaving precisely the rest of the
input; and when no unescaped quote remains, it fails with the
unterminated-string diagnostic at the line where the literal opened. -/
theorem C5_refines : ∀ (n : Nat) (q : Int) (was : Nat) (st : St),
    0 < q → st.preview = 0 → (∀ b ∈ st.input, 0 < b) →
    (∀ st2, strLoop q false was n st = .ok st2 →
      ∃ p rest, skipStringSpec q st.input = some (p, rest) ∧
        st2.out = st.out ++ p ∧ st2.input = rest ∧ st2.preview = 0) ∧
    (∀ l m, strLoop q false was n st = .err l m →
      skipStringSpec q st.input = none ∧ m = msgUntermString ∧ l = was) := by
  intro n
  induction n with
  | zero =>
    intro q was st hq hp hpos
    exact ⟨fun st2 h => R.noConfusion h, fun l m h => R.noConfusion h⟩
  | succ n ih =>
    intro q was st hq hp hpos
    obtain ⟨si, sp, sc, sl, so⟩ := st
    have hp2 : sp = 0 := hp
    subst hp2
    have hnq : ¬ ((-1 : Int) = q) := by omega
    cases si with
    | nil =>
      have hg : get true (⟨[], 0, sc, sl, so⟩ : St) = (-1, ⟨[], 0, sc, sl, so⟩) := by
        simp [get, EOF]
      constructor
      · intro st2 h
        simp only [strLoop, hg, hnq, if_false, EOF] at h
        norm_num at h
        exact R.noConfusion h
      · intro l m h
        simp only [strLoop, hg, hnq, if_false, EOF] at h
        norm_num at h
        exact ⟨rfl, h.2.symm, h.1.symm⟩
    | cons c t =>
      have hc : 0 < c := hpos c (by simp)
      have hgp := get_eq_pop true c t sc sl so hc
      have hposf : ∀ b ∈ t, 0 < b := fun b hb => hpos b (by simp [hb])
      by_cases hcq : c = q
      · constructor
        · intro st2 h
          simp only [strLoop, hgp, if_pos hcq] at h
          injection h with h1
          refine ⟨[c], t, ?_, ?_, ?_, ?_⟩
          · subst hcq
            rw [skipStringSpec.eq_def]
            simp
          · rw [← h1]; simp
          · rw [← h1]
          · rw [← h1]
        · intro l m h
          simp only [strLoop, hgp, if_pos hcq] at h
          exact R.noConfusion h
      · by_cases hc92 : c = 92
        · subst hc92
          cases t with
          | nil =>
            have hg2 : get true (⟨[], 0, (lineStep sc sl 92).1,
                (lineStep sc sl 92).2, so ++ [92]⟩ : St) =
                (-1, ⟨[], 0, (lineStep sc sl 92).1, (lineStep sc sl 92).2,
                  so ++ [92]⟩) := by
              simp [get, EOF]
            constructor
            · intro st2 h
              simp only [strLoop, hgp, if_neg hcq, if_true, hg2, EOF] at h
              norm_num at h
              exact R.noConfusion h
            · intro l m h
              simp only [strLoop, hgp, if_neg hcq, if_true, hg2, EOF] at h
              norm_num at h
              refine ⟨?_, h.2.symm, h.1.symm⟩
              rw [skipStringSpec.eq_def]
              simp only []
              rw [if_neg hcq]
              norm_num
          | cons d t2 =>
            have hd : 0 < d := hposf d (by simp)
            have hnd : ¬ (d = -1) := by omega
            have hg2 := get_eq_pop true d t2 (lineStep sc sl 92).1
              (lineStep sc sl 92).2 (so ++ [92]) hd
            have hih := ih q was ⟨t2, 0, (lineStep (lineStep sc sl 92).1
              (lineStep sc sl 92).2 d).1, (lineStep (lineStep sc sl 92).1
              (lineStep sc sl 92).2 d).2, so ++ [92, d]⟩ hq rfl
              (fun b hb => hposf b (by simp [hb]))
            constructor
            · intro st2 h
              simp only [strLoop, hgp, if_neg hcq, if_true, hg2, EOF, hnd,
                if_false] at h
              norm_num at h
              obtain ⟨p2, rest, hs, ho, hi2, hpv⟩ := hih.1 st2 h
              have hs2 : skipStringSpec q t2 = some (p2, rest) := hs
              have ho2 : st2.out = (so ++ [92, d]) ++ p2 := ho
              refine ⟨92 :: d :: p2, rest, ?_, ?_, hi2, hpv⟩
              · rw [skipStringSpec.eq_def]
                simp only []
                rw [if_neg hcq]
                norm_num [hs2]
              · rw [ho2]; simp
            · intro l m h
              simp only [strLoop, hgp, if_neg hcq, if_true, hg2, EOF, hnd,
                if_false] at h
              norm_num at h
              obtain ⟨hs, hm, hl⟩ := hih.2 l m h
              have hs2 : skipStringSpec q t2 = none := hs
              refine ⟨?_, hm, hl⟩
              rw [skipStringSpec.eq_def]
              simp only []
              rw [if_neg hcq]
              norm_num [hs2]
        · have hnc : ¬ (c = -1) := by omega
          have hih := ih q was ⟨t, 0, (lineStep sc sl c).1, (lineStep sc sl c).2,
            so ++ [c]⟩ hq rfl hposf
          constructor
          · intro st2 h
            simp only [strLoop, hgp, if_neg hcq, if_neg hc92, EOF, hnc,
              if_false] at h
            norm_num at h
            obtain ⟨p2, rest, hs, ho, hi2, hpv⟩ := hih.1 st2 h
            have hs2 : skipStringSpec q t = some (p2, rest) := hs
            have ho2 : st2.out = (so ++ [c]) ++ p2 := ho
            refine ⟨c :: p2, rest, ?_, ?_, hi2, hpv⟩
            · rw [skipStringSpec.eq_def]
              simp only []
              rw [if_neg hcq, if_neg hc92, hs2]
              rfl
            · rw [ho2]; simp
          · intro l m h
            simp only [strLoop, hgp, if_neg hcq, if_neg hc92, EOF, hnc,
              if_false] at h
            norm_num at h
            obtain ⟨hs, hm, hl⟩ := hih.2 l m h
            have hs2 : skipStringSpec q t = none := hs
            refine ⟨?_, hm, hl⟩
            rw [skipStringSpec.eq_def]
            simp only []
            rw [if_neg hcq, if_neg hc92, hs2]
            rfl

/-- Witness for C5: the literal `a backslash-quote b quote` consumes
through the closing quote, leaving the `x`. -/
theorem C5_witness :
    strLoop 34 false 3 9 ⟨[97, 92, 34, 98, 34, 120], 0, false, 3, [1]⟩ =
      .ok ⟨[120], 0, false, 3, [1, 97, 92, 34, 98, 34]⟩ ∧
    ∃ p rest, skipStringSpec 34 ([97, 92, 34, 98, 34, 120] : List Int) =
        some (p, rest) ∧
      (⟨[120], 0, false, 3, [1, 97, 92, 34, 98, 34]⟩ : St).out = [1] ++ p ∧
      (⟨[120], 0, false, 3, [1, 97, 92, 34, 98, 34]⟩ : St).input = rest ∧
      (⟨[120], 0, false, 3, [1, 97, 92, 34, 98, 34]⟩ : St).preview = 0 := by
  refine ⟨by decide, ?_⟩
  exact (C5_refines 9 34 3 ⟨[97, 92, 34, 98, 34, 120], 0, false, 3, [1]⟩
    (by decide) (by decide) (by decide)).1
    ⟨[120], 0, false, 3, [1, 97, 92, 34, 98, 34]⟩ (by decide)


theorem avail_pv0 (st : St) (hp : st.preview = 0) : avail st = st.input := by
  unfold avail pv
  rw [hp]
  simp

theorem WF_of_pv0 (st : St) (hp : st.preview = 0) (hpos : ∀ b ∈ st.input, 0 < b) :
    WF st := by
  refine ⟨hpos, by rw [hp]; norm_num, by rw [hp]; norm_num⟩

theorem hasPair_tail (a b x : Int) (l : List Int)
    (h : hasPair a b (x :: l) = false) : hasPair a b l = false := by
  cases l with
  | nil => rfl
  | cons y t =>
    simp only [hasPair, Bool.or_eq_false_iff] at h
    exact h.2

theorem hasPair_head (a b x y : Int) (l : List Int)
    (h : hasPair a b (x :: y :: l) = false) : ¬ (x = a ∧ y = b) := by
  simp only [hasPair, Bool.or_eq_false_iff, Bool.and_eq_false_iff] at h
  intro ⟨h1, h2⟩
  rcases h.1 with h3 | h3 <;> simp [h1, h2] at h3

theorem copyE (d : Int) (n : Nat) (st : St) (hp : st.preview = d) (hd : 0 < d) :
    copyLoop d (n + 1) st = copyLoop d n ⟨st.input, 0,
      (lineStep st.cr st.line_nr d).1, (lineStep st.cr st.line_nr d).2,
      st.out ++ [d]⟩ := by
  obtain ⟨si, sp, sc, sl, so⟩ := st
  have hp2 : sp = d := hp
  subst hp2
  have hg := get_eq_preview true sp si sc sl so hd
  have hnd : ¬ (sp = EOF) := by simp only [EOF]; omega
  simp only [copyLoop, hg, hnd, if_false]
  by_cases h47 : sp = 47
  · subst h47
    norm_num
  · by_cases h42 : sp = 42
    · subst h42
      norm_num
    · simp only [if_neg h47, if_neg h42]
      norm_num

theorem copyStep (c b : Int) (t2 : List Int) (m : Nat) (st : St)
    (hp : st.preview = 0) (hpos : ∀ y ∈ st.input, 0 < y)
    (hin : st.input = b :: t2) (hc : 0 < c)
    (hx1 : ¬ (c = 47 ∧ b = 42)) (hx2 : ¬ (c = 42 ∧ b = 47)) :
    copyLoop c (m + 1) st = copyLoop b m ⟨t2, 0,
      (lineStep st.cr st.line_nr b).1, (lineStep st.cr st.line_nr b).2,
      st.out ++ [b]⟩ := by
  have hwf := WF_of_pv0 st hp hpos
  have hav : avail st = b :: t2 := by rw [avail_pv0 st hp, hin]
  obtain ⟨hb, hg⟩ := get_cons true st b t2 hwf hav
  have hnc : ¬ (c = EOF) := by simp only [EOF]; omega
  simp only [copyLoop, hg, hnc, if_false]
  by_cases h47 : c = 47
  · have hb42 : ¬ (b = 42) := fun hh => hx1 ⟨h47, hh⟩
    simp only [if_pos h47, if_neg hb42]
    norm_num
  · by_cases h42 : c = 42
    · have hb47 : ¬ (b = 47) := fun hh => hx2 ⟨h42, hh⟩
      simp only [if_neg h47, if_pos h42, if_neg hb47]
      norm_num
    · simp only [if_neg h47, if_neg h42]
      norm_num

theorem copyStepEOF (c : Int) (m : Nat) (st : St)
    (hp : st.preview = 0) (hin : st.input = []) (hc : 0 < c) (hm : 1 ≤ m) :
    copyLoop c (m + 1) st = .err st.line_nr msgUntermComment := by
  have hwf := WF_of_pv0 st hp (by rw [hin]; simp)
  have hav : avail st = [] := by rw [avail_pv0 st hp, hin]
  have hg := get_nil true st hwf hav
  have hnc : ¬ (c = EOF) := by simp only [EOF]; omega
  have hend : ∀ k, copyLoop (-1) (k + 1) ({ st with preview := 0 }) =
      .err st.line_nr msgUntermComment := by
    intro k
    simp [copyLoop, EOF]
  match m, hm with
  | k + 1, _ =>
    simp only [copyLoop, hg, hnc, if_false]
    by_cases h47 : c = 47
    · simp only [if_pos h47]
      rw [if_neg (by norm_num : ¬ ((-1 : Int) = 42))]
      exact hend k
    · by_cases h42 : c = 42
      · simp only [if_neg h47, if_pos h42]
        rw [if_neg (by norm_num : ¬ ((-1 : Int) = 47))]
        exact hend k
      · simp only [if_neg h47, if_neg h42]
        exact hend k

theorem copySA : ∀ (p : List Int) (c : Int) (rest : List Int) (n : Nat) (st : St),
    st.preview = 0 → 0 < c → (∀ b ∈ st.input, 0 < b) →
    c :: st.input = p ++ [42, 47] ++ rest →
    hasPair 47 42 (p ++ [42]) = false → hasPair 42 47 p = false →
    p.length + 1 ≤ n →
    ∃ st2 e, copyLoop c n st = .ok st2 ∧ c :: e = p ++ [42, 47] ∧
      st2.out = st.out ++ e ∧ st2.input = rest ∧ st2.preview = 0 := by
  intro p
  induction p with
  | nil =>
    intro c rest n st hp hc hpos hkey h1 h2 hn
    injection hkey with ha hb
    have hb2 : st.input = 47 :: rest := hb
    rcases n with _ | m
    · omega
    · have hwf := WF_of_pv0 st hp hpos
      have hav : avail st = 47 :: rest := by rw [avail_pv0 st hp, hb2]
      obtain ⟨h47p, hg⟩ := get_cons true st 47 rest hwf hav
      refine ⟨⟨rest, 0, (lineStep st.cr st.line_nr 47).1,
        (lineStep st.cr st.line_nr 47).2, st.out ++ [47]⟩, [47], ?_, ?_, rfl, rfl, rfl⟩
      · simp only [copyLoop, ha, hg, EOF]
        norm_num
      · simp [ha]
  | cons x p2 ih =>
    intro c rest n st hp hc hpos hkey h1 h2 hn
    injection hkey with ha hb
    have hb2 : st.input = p2 ++ [42, 47] ++ rest := hb
    rcases n with _ | m
    · omega
    · have hm : p2.length + 1 ≤ m := by
        simp only [List.length_cons] at hn
        omega
      obtain ⟨b, t2, hL⟩ := List.exists_cons_of_ne_nil
        (show p2 ++ [42, 47] ++ rest ≠ [] by simp)
      have hin : st.input = b :: t2 := by rw [hb2, hL]
      have hbpos : 0 < b := hpos b (by rw [hin]; simp)
      have hx1 : ¬ (c = 47 ∧ b = 42) := by
        rintro ⟨hc47, hb42⟩
        rw [ha] at hc47
        cases p2 with
        | nil =>
          subst hc47
          simp [hasPair] at h1
        | cons y p3 =>
          injection hL with hL1 hL2
          simp only [List.cons_append] at h1
          exact hasPair_head 47 42 x y (p3 ++ [42]) h1 ⟨hc47, hL1.trans hb42⟩
      have hx2 : ¬ (c = 42 ∧ b = 47) := by
        rintro ⟨hc42, hb47⟩
        rw [ha] at hc42
        cases p2 with
        | nil =>
          injection hL with hL1 hL2
          rw [← hL1] at hb47
          norm_num at hb47
        | cons y p3 =>
          injection hL with hL1 hL2
          exact hasPair_head 42 47 x y p3 h2 ⟨hc42, hL1.trans hb47⟩
      rw [copyStep c b t2 m st hp hpos hin hc hx1 hx2]
      have hkey2 : b :: t2 = p2 ++ [42, 47] ++ rest := hL.symm
      have h1t : hasPair 47 42 (p2 ++ [42]) = false := by
        simp only [List.cons_append] at h1
        exact hasPair_tail _ _ _ _ h1
      have h2t : hasPair 42 47 p2 = false := hasPair_tail _ _ _ _ h2
      obtain ⟨st2, e2, hrun, hke, hout, hinp, hpv⟩ := ih b rest m
        ⟨t2, 0, (lineStep st.cr st.line_nr b).1, (lineStep st.cr st.line_nr b).2,
          st.out ++ [b]⟩ rfl hbpos
        (fun z hz => hpos z (by rw [hin]; simp [hz])) hkey2 h1t h2t hm
      refine ⟨st2, b :: e2, hrun, ?_, ?_, hinp, hpv⟩
      · rw [ha]
        simp only [List.cons_append]
        rw [List.cons_eq_cons]
        exact ⟨rfl, hke⟩
      · rw [hout]
        simp

theorem copySB : ∀ (p : List Int) (c : Int) (rest : List Int) (n : Nat) (st : St),
    st.preview = 0 → 0 < c → (∀ b ∈ st.input, 0 < b) →
    c :: st.input = p ++ [47, 42] ++ rest →
    hasPair 42 47 (p ++ [47]) = false → hasPair 47 42 p = false →
    p.length + 1 ≤ n →
    ∃ l, copyLoop c n st = .err l msgNestedComment := by
  intro p
  induction p with
  | nil =>
    intro c rest n st hp hc hpos hkey h1 h2 hn
    injection hkey with ha hb
    have hb2 : st.input = 42 :: rest := hb
    rcases n with _ | m
    · omega
    · have hwf := WF_of_pv0 st hp hpos
      have hav : avail st = 42 :: rest := by rw [avail_pv0 st hp, hb2]
      obtain ⟨h42p, hg⟩ := get_cons true st 42 rest hwf hav
      have hrun : copyLoop c (m + 1) st =
          .err (lineStep st.cr st.line_nr 42).2 msgNestedComment := by
        simp only [copyLoop, ha, hg, EOF]
        norm_num
      exact ⟨_, hrun⟩
  | cons x p2 ih =>
    intro c rest n st hp hc hpos hkey h1 h2 hn
    injection hkey with ha hb
    have hb2 : st.input = p2 ++ [47, 42] ++ rest := hb
    rcases n with _ | m
    · omega
    · have hm : p2.length + 1 ≤ m := by
        simp only [List.length_cons] at hn
        omega
      obtain ⟨b, t2, hL⟩ := List.exists_cons_of_ne_nil
        (show p2 ++ [47, 42] ++ rest ≠ [] by simp)
      have hin : st.input = b :: t2 := by rw [hb2, hL]
      have hbpos : 0 < b := hpos b (by rw [hin]; simp)
      have hx1 : ¬ (c = 47 ∧ b = 42) := by
        rintro ⟨hc47, hb42⟩
        rw [ha] at hc47
        cases p2 with
        | nil =>
          injection hL with hL1 hL2
          rw [← hL1] at hb42
          norm_num at hb42
        | cons y p3 =>
          injection hL with hL1 hL2
          exact hasPair_head 47 42 x y p3 h2 ⟨hc47, hL1.trans hb42⟩
      have hx2 : ¬ (c = 42 ∧ b = 47) := by
        rintro ⟨hc42, hb47⟩
        rw [ha] at hc42
        cases p2 with
        | nil =>
          subst hc42
          simp [hasPair] at h1
        | cons y p3 =>
          injection hL with hL1 hL2
          simp only [List.cons_append] at h1
          exact hasPair_head 42 47 x y (p3 ++ [47]) h1 ⟨hc42, hL1.trans hb47⟩
      rw [copyStep c b t2 m st hp hpos hin hc hx1 hx2]
      have hkey2 : b :: t2 = p2 ++ [47, 42] ++ rest := hL.symm
      have h1t : hasPair 42 47 (p2 ++ [47]) = false := by
        simp only [List.cons_append] at h1
        exact hasPair_tail _ _ _ _ h1
      have h2t : hasPair 47 42 p2 = false := hasPair_tail _ _ _ _ h2
      exact ih b rest m ⟨t2, 0, (lineStep st.cr st.line_nr b).1,
        (lineStep st.cr st.line_nr b).2, st.out ++ [b]⟩ rfl hbpos
        (fun z hz => hpos z (by rw [hin]; simp [hz])) hkey2 h1t h2t hm

theorem copySC : ∀ (p : List Int) (c : Int) (n : Nat) (st : St),
    st.preview = 0 → 0 < c → (∀ b ∈ st.input, 0 < b) →
    c :: st.input = p →
    hasPair 42 47 p = false → hasPair 47 42 p = false →
    p.length + 1 ≤ n →
    ∃ l, copyLoop c n st = .err l msgUntermComment := by
  intro p
  induction p with
  | nil =>
    intro c n st _ _ _ hkey _ _ _
    exact absurd hkey (by simp)
  | cons x p2 ih =>
    intro c n st hp hc hpos hkey h1 h2 hn
    injection hkey with ha hb
    rcases n with _ | m
    · omega
    · cases p2 with
      | nil =>
        have hm : 1 ≤ m := by
          simp only [List.length_cons, List.length_nil] at hn
          omega
        exact ⟨st.line_nr, copyStepEOF c m st hp hb hc hm⟩
      | cons y p3 =>
        have hin : st.input = y :: p3 := hb
        have hypos : 0 < y := hpos y (by rw [hin]; simp)
        have hx1 : ¬ (c = 47 ∧ y = 42) := by
          rintro ⟨hc47, hy42⟩
          rw [ha] at hc47
          exact hasPair_head 47 42 x y p3 h2 ⟨hc47, hy42⟩
        have hx2 : ¬ (c = 42 ∧ y = 47) := by
          rintro ⟨hc42, hy47⟩
          rw [ha] at hc42
          exact hasPair_head 42 47 x y p3 h1 ⟨hc42, hy47⟩
        rw [copyStep c y p3 m st hp hpos hin hc hx1 hx2]
        exact ih y m ⟨p3, 0, (lineStep st.cr st.line_nr y).1,
          (lineStep st.cr st.line_nr y).2, st.out ++ [y]⟩ rfl hypos
          (fun z hz => hpos z (by rw [hin]; simp [hz])) rfl
          (hasPair_tail _ _ _ _ h1) (hasPair_tail _ _ _ _ h2)
          (by simp only [List.length_cons] at hn ⊢; omega)

/-- Claim C6 (confirmed): while copying the body of a comment whose
identifier did not match the table — entered with the first unconsumed
character in the pushback slot — the loop copies the body verbatim
through the closing star-slash when no slash-star and no earlier
star-slash pair occurs before it; it raises the fatal nested-comment
error when the sequence slash-star is encountered before the closing
star-slash; and it raises the fatal unterminated-comment error when the
input ends with neither pair occurring. -/
theorem C6_copy :
    (∀ (p rest : List Int) (d : Int) (n : Nat) (st : St),
      st.preview = d → 0 < d → (∀ b ∈ st.input, 0 < b) →
      d :: st.input = p ++ [42, 47] ++ rest →
      hasPair 47 42 (p ++ [42]) = false → hasPair 42 47 p = false →
      p.length + 2 ≤ n →
      ∃ st2, copyLoop d n st = .ok st2 ∧ st2.out = st.out ++ p ++ [42, 47] ∧
        st2.input = rest ∧ st2.preview = 0) ∧
    (∀ (p rest : List Int) (d : Int) (n : Nat) (st : St),
      st.preview = d → 0 < d → (∀ b ∈ st.input, 0 < b) →
      d :: st.input = p ++ [47, 42] ++ rest →
      hasPair 42 47 (p ++ [47]) = false → hasPair 47 42 p = false →
      p.length + 2 ≤ n →
      ∃ l, copyLoop d n st = .err l msgNestedComment) ∧
    (∀ (p : List Int) (d : Int) (n : Nat) (st : St),
      st.preview = d → 0 < d → (∀ b ∈ st.input, 0 < b) →
      d :: st.input = p →
      hasPair 42 47 p = false → hasPair 47 42 p = false →
      p.length + 2 ≤ n →
      ∃ l, copyLoop d n st = .err l msgUntermComment) := by
  refine ⟨?_, ?_, ?_⟩
  · intro p rest d n st hp hd hpos hkey h1 h2 hn
    rcases n with _ | m
    · omega
    · rw [copyE d m st hp hd]
      obtain ⟨st2, e, hrun, hke, hout, hinp, hpv⟩ := copySA p d rest m
        ⟨st.input, 0, (lineStep st.cr st.line_nr d).1,
          (lineStep st.cr st.line_nr d).2, st.out ++ [d]⟩ rfl hd hpos hkey
        h1 h2 (by omega)
      refine ⟨st2, hrun, ?_, hinp, hpv⟩
      rw [hout]
      have hde : d :: e = p ++ [42, 47] := hke
      calc (st.out ++ [d]) ++ e = st.out ++ (d :: e) := by simp
        _ = st.out ++ (p ++ [42, 47]) := by rw [hde]
        _ = st.out ++ p ++ [42, 47] := by simp
  · intro p rest d n st hp hd hpos hkey h1 h2 hn
    rcases n with _ | m
    · omega
    · rw [copyE d m st hp hd]
      exact copySB p d rest m ⟨st.input, 0, (lineStep st.cr st.line_nr d).1,
        (lineStep st.cr st.line_nr d).2, st.out ++ [d]⟩ rfl hd hpos hkey
        h1 h2 (by omega)
  · intro p d n st hp hd hpos hkey h1 h2 hn
    rcases n with _ | m
    · omega
    · rw [copyE d m st hp hd]
      exact copySC p d m ⟨st.input, 0, (lineStep st.cr st.line_nr d).1,
        (lineStep st.cr st.line_nr d).2, st.out ++ [d]⟩ rfl hd hpos hkey
        h1 h2 (by omega)

/-- Witness for C6: the body `x` star-slash `b` is copied through the
closing star-slash, leaving the `b`. -/
theorem C6_witness :
    ∃ st2, copyLoop 120 5 ⟨[42, 47, 98], 120, false, 1, [9]⟩ = .ok st2 ∧
      st2.out = ([9] : List Int) ++ [120] ++ [42, 47] ∧
      st2.input = [98] ∧ st2.preview = 0 := by
  exact C6_copy.1 [120] [98] 120 5 ⟨[42, 47, 98], 120, false, 1, [9]⟩ rfl
    (by decide) (by decide) (by decide) (by decide) (by decide) (by decide)

theorem avail_nil_cases (st : St) (hw : WF st) (h : avail st = []) :
    st.input = [] ∧ (st.preview = 0 ∨ st.preview = -1) := by
  obtain ⟨h1, h2, h3⟩ := hw
  unfold avail pv at h
  split at h
  · simp at h
  · simp only [List.nil_append] at h
    rename_i hnot
    have h2b : -1 ≤ st.preview := h2
    exact ⟨h, by omega⟩

theorem WF_pv0_of_WF (st : St) (hwf : WF st) : WF { st with preview := 0 } := by
  obtain ⟨h1, h2, h3⟩ := hwf
  exact ⟨h1, by norm_num, by norm_num⟩

theorem avail_pv0_of_nil (st : St) (hwf : WF st) (hA : avail st = []) :
    avail { st with preview := 0 } = [] := by
  obtain ⟨hi, _⟩ := avail_nil_cases st hwf hA
  unfold avail pv
  simp [hi]

theorem str_echo : ∀ (n : Nat) (q : Int) (was : Nat) (st st2 : St), WF st →
    strLoop q false was n st = .ok st2 →
    ∃ cs, avail st = cs ++ avail st2 ∧ st2.out = st.out ++ cs ∧ WF st2 := by
  intro n
  induction n with
  | zero => intro q was st st2 _ h; exact R.noConfusion h
  | succ n ih =>
    intro q was st st2 hwf h
    simp only [strLoop] at h
    rcases hA : avail st with _ | ⟨b, t⟩
    · rw [get_nil true st hwf hA] at h
      norm_num [EOF] at h
      by_cases hq : (-1 : Int) = q
      · rw [if_pos hq] at h
        injection h with h1
        subst h1
        refine ⟨[], ?_, by simp, WF_pv0_of_WF st hwf⟩
        rw [avail_pv0_of_nil st hwf hA]
        rfl
      · rw [if_neg hq] at h
        exact R.noConfusion h
    · obtain ⟨hb, hg⟩ := get_cons true st b t hwf hA
      rw [hg] at h
      norm_num at h
      have hwfg : WF (⟨t, 0, (lineStep st.cr st.line_nr b).1,
          (lineStep st.cr st.line_nr b).2, st.out ++ [b]⟩ : St) := by
        apply WF_mk
        intro z hz
        refine avail_pos st hwf z ?_
        rw [hA]
        simp [hz]
      by_cases hbq : b = q
      · rw [if_pos hbq] at h
        injection h with h1
        rw [← h1]
        refine ⟨[b], ?_, by simp, hwfg⟩
        rw [avail_mk0]
        rfl
      · rw [if_neg hbq] at h
        by_cases hb92 : b = 92
        · rw [if_pos hb92] at h
          rcases ht : t with _ | ⟨d, t2⟩
          · rw [ht] at h hwfg
            rw [get_nil true _ hwfg (by rw [avail_mk0])] at h
            norm_num [EOF] at h
            exact R.noConfusion h
          · rw [ht] at h hwfg
            obtain ⟨hd, hg2⟩ := get_cons true _ d t2 hwfg (by rw [avail_mk0])
            rw [hg2] at h
            norm_num [EOF] at h
            rw [if_neg (show ¬ (d = -1) by omega)] at h
            have hwfg2 : WF (⟨t2, 0,
                (lineStep (lineStep st.cr st.line_nr b).1
                  (lineStep st.cr st.line_nr b).2 d).1,
                (lineStep (lineStep st.cr st.line_nr b).1
                  (lineStep st.cr st.line_nr b).2 d).2,
                st.out ++ [b, d]⟩ : St) := by
              apply WF_mk
              intro z hz
              refine avail_pos st hwf z ?_
              rw [hA, ht]
              simp [hz]
            obtain ⟨cs3, hA3, ho3, hwf3⟩ := ih q was _ st2 hwfg2 h
            rw [avail_mk0] at hA3
            refine ⟨b :: d :: cs3, ?_, ?_, hwf3⟩
            · rw [hA3]
              simp
            · have ho4 : st2.out = st.out ++ [b, d] ++ cs3 := ho3
              rw [ho4]
              simp
        · rw [if_neg hb92] at h
          norm_num [EOF] at h
          rw [if_neg (show ¬ (b = -1) by omega)] at h
          obtain ⟨cs3, hA3, ho3, hwf3⟩ := ih q was _ st2 hwfg h
          rw [avail_mk0] at hA3
          refine ⟨b :: cs3, ?_, ?_, hwf3⟩
          · rw [hA3]
            simp
          · have ho4 : st2.out = st.out ++ [b] ++ cs3 := ho3
            rw [ho4]
            simp

theorem class_echo : ∀ (n : Nat) (st st2 : St), WF st →
    rexClass false n st = .ok st2 →
    ∃ cs, avail st = cs ++ avail st2 ∧ st2.out = st.out ++ cs ∧ WF st2 := by
  intro n
  induction n with
  | zero => intro st st2 _ h; exact R.noConfusion h
  | succ n ih =>
    intro st st2 hwf h
    simp only [rexClass] at h
    rcases hA : avail st with _ | ⟨b, t⟩
    · rw [get_nil true st hwf hA] at h
      norm_num [EOF] at h
      exact R.noConfusion h
    · obtain ⟨hb, hg⟩ := get_cons true st b t hwf hA
      rw [hg] at h
      norm_num at h
      have hwfg : WF (⟨t, 0, (lineStep st.cr st.line_nr b).1,
          (lineStep st.cr st.line_nr b).2, st.out ++ [b]⟩ : St) := by
        apply WF_mk
        intro z hz
        refine avail_pos st hwf z ?_
        rw [hA]
        simp [hz]
      by_cases hbq : b = 93
      · rw [if_pos hbq] at h
        injection h with h1
        rw [← h1]
        refine ⟨[b], ?_, by simp, hwfg⟩
        rw [avail_mk0]
        rfl
      · rw [if_neg hbq] at h
        by_cases hb92 : b = 92
        · rw [if_pos hb92] at h
          rcases ht : t with _ | ⟨d, t2⟩
          · rw [ht] at h hwfg
            rw [get_nil true _ hwfg (by rw [avail_mk0])] at h
            norm_num [EOF] at h
            exact R.noConfusion h
          · rw [ht] at h hwfg
            obtain ⟨hd, hg2⟩ := get_cons true _ d t2 hwfg (by rw [avail_mk0])
            rw [hg2] at h
            norm_num [EOF] at h
            rw [if_neg (show ¬ (d = -1) by omega)] at h
            have hwfg2 : WF (⟨t2, 0,
                (lineStep (lineStep st.cr st.line_nr b).1
                  (lineStep st.cr st.line_nr b).2 d).1,
                (lineStep (lineStep st.cr st.line_nr b).1
                  (lineStep st.cr st.line_nr b).2 d).2,
                st.out ++ [b, d]⟩ : St) := by
              apply WF_mk
              intro z hz
              refine avail_pos st hwf z ?_
              rw [hA, ht]
              simp [hz]
            obtain ⟨cs3, hA3, ho3, hwf3⟩ := ih _ st2 hwfg2 h
            rw [avail_mk0] at hA3
            refine ⟨b :: d :: cs3, ?_, ?_, hwf3⟩
            · rw [hA3]
              simp
            · have ho4 : st2.out = st.out ++ [b, d] ++ cs3 := ho3
              rw [ho4]
              simp
        · rw [if_neg hb92] at h
          norm_num [EOF] at h
          rw [if_neg (show ¬ (b = -1) by omega)] at h
          obtain ⟨cs3, hA3, ho3, hwf3⟩ := ih _ st2 hwfg h
          rw [avail_mk0] at hA3
          refine ⟨b :: cs3, ?_, ?_, hwf3⟩
          · rw [hA3]
            simp
          · have ho4 : st2.out = st.out ++ [b] ++ cs3 := ho3
            rw [ho4]
            simp

theorem rex_echo : ∀ (n : Nat) (was : Nat) (st st2 : St), WF st →
    rexLoop false was n st = .ok st2 →
    ∃ cs, avail st = cs ++ avail st2 ∧ st2.out = st.out ++ cs ∧ WF st2 := by
  intro n
  induction n with
  | zero => intro was st st2 _ h; exact R.noConfusion h
  | succ n ih =>
    intro was st st2 hwf h
    simp only [rexLoop] at h
    rcases hA : avail st with _ | ⟨b, t⟩
    · rw [get_nil true st hwf hA] at h
      norm_num [EOF] at h
      exact R.noConfusion h
    · obtain ⟨hb, hg⟩ := get_cons true st b t hwf hA
      rw [hg] at h
      norm_num at h
      have hwfg : WF (⟨t, 0, (lineStep st.cr st.line_nr b).1,
          (lineStep st.cr st.line_nr b).2, st.out ++ [b]⟩ : St) := by
        apply WF_mk
        intro z hz
        refine avail_pos st hwf z ?_
        rw [hA]
        simp [hz]
      by_cases hb91 : b = 91
      · rw [if_pos hb91] at h
        cases hcl : rexClass false n (⟨t, 0, (lineStep st.cr st.line_nr b).1,
            (lineStep st.cr st.line_nr b).2, st.out ++ [b]⟩ : St) with
        | ok stc =>
          rw [hcl] at h
          simp only [] at h
          obtain ⟨cs1, hA1, ho1, hwf1⟩ := class_echo n _ stc hwfg hcl
          rw [avail_mk0] at hA1
          obtain ⟨cs2, hA2, ho2, hwf2⟩ := ih was stc st2 hwf1 h
          refine ⟨b :: cs1 ++ cs2, ?_, ?_, hwf2⟩
          · rw [hA1, hA2]
            simp
          · rw [ho2, ho1]
            have ho5 : (⟨t, 0, (lineStep st.cr st.line_nr b).1,
                (lineStep st.cr st.line_nr b).2, st.out ++ [b]⟩ : St).out =
              st.out ++ [b] := rfl
            rw [ho5]
            simp
        | err l m =>
          rw [hcl] at h
          exact R.noConfusion h
        | fuel =>
          rw [hcl] at h
          exact R.noConfusion h
      · rw [if_neg hb91] at h
        by_cases hb47 : b = 47
        · rw [if_pos hb47] at h
          norm_num at h
          subst h
          refine ⟨[b], ?_, by simp, hwfg⟩
          rw [avail_mk0]
          rfl
        · rw [if_neg hb47] at h
          by_cases hb92 : b = 92
          · rw [if_pos hb92] at h
            rcases ht : t with _ | ⟨d, t2⟩
            · rw [ht] at h hwfg
              rw [get_nil true _ hwfg (by rw [avail_mk0])] at h
              norm_num [EOF] at h
              exact R.noConfusion h
            · rw [ht] at h hwfg
              obtain ⟨hd, hg2⟩ := get_cons true _ d t2 hwfg (by rw [avail_mk0])
              rw [hg2] at h
              norm_num [EOF] at h
              rw [if_neg (show ¬ (d = -1) by omega)] at h
              have hwfg2 : WF (⟨t2, 0,
                  (lineStep (lineStep st.cr st.line_nr b).1
                    (lineStep st.cr st.line_nr b).2 d).1,
                  (lineStep (lineStep st.cr st.line_nr b).1
                    (lineStep st.cr st.line_nr b).2 d).2,
                  st.out ++ [b, d]⟩ : St) := by
                apply WF_mk
                intro z hz
                refine avail_pos st hwf z ?_
                rw [hA, ht]
                simp [hz]
              obtain ⟨cs3, hA3, ho3, hwf3⟩ := ih was _ st2 hwfg2 h
              rw [avail_mk0] at hA3
              refine ⟨b :: d :: cs3, ?_, ?_, hwf3⟩
              · rw [hA3]
                simp
              · have ho4 : st2.out = st.out ++ [b, d] ++ cs3 := ho3
                rw [ho4]
                simp
          · rw [if_neg hb92] at h
            norm_num [EOF] at h
            rw [if_neg (show ¬ (b = -1) by omega)] at h
            obtain ⟨cs3, hA3, ho3, hwf3⟩ := ih was _ st2 hwfg h
            rw [avail_mk0] at hA3
            refine ⟨b :: cs3, ?_, ?_, hwf3⟩
            · rw [hA3]
              simp
            · have ho4 : st2.out = st.out ++ [b] ++ cs3 := ho3
              rw [ho4]
              simp

theorem lc_echo : ∀ (n : Nat) (st st2 : St), WF st →
    lcLoop n st = .ok st2 →
    ∃ cs, avail st = cs ++ avail st2 ∧ st2.out = st.out ++ cs ∧ WF st2 := by
  intro n
  induction n with
  | zero => intro st st2 _ h; exact R.noConfusion h
  | succ n ih =>
    intro st st2 hwf h
    simp only [lcLoop] at h
    rcases hA : avail st with _ | ⟨b, t⟩
    · rw [get_nil true st hwf hA] at h
      norm_num [EOF] at h
      refine ⟨[], ?_, by simp [← h], ?_⟩
      · rw [← h, avail_pv0_of_nil st hwf hA]
        rfl
      · rw [← h]
        exact WF_pv0_of_WF st hwf
    · obtain ⟨hb, hg⟩ := get_cons true st b t hwf hA
      rw [hg] at h
      norm_num [EOF] at h
      have hwfg : WF (⟨t, 0, (lineStep st.cr st.line_nr b).1,
          (lineStep st.cr st.line_nr b).2, st.out ++ [b]⟩ : St) := by
        apply WF_mk
        intro z hz
        refine avail_pos st hwf z ?_
        rw [hA]
        simp [hz]
      by_cases hb10 : b = 10 ∨ b = 13 ∨ b = -1
      · rw [if_pos hb10] at h
        injection h with h1
        rw [← h1]
        refine ⟨[b], ?_, by simp, hwfg⟩
        rw [avail_mk0]
        rfl
      · rw [if_neg hb10] at h
        obtain ⟨cs3, hA3, ho3, hwf3⟩ := ih _ st2 hwfg h
        rw [avail_mk0] at hA3
        refine ⟨b :: cs3, ?_, ?_, hwf3⟩
        · rw [hA3]
          simp
        · have ho4 : st2.out = st.out ++ [b] ++ cs3 := ho3
          rw [ho4]
          simp

theorem copy_echo : ∀ (n : Nat) (c : Int) (st st2 : St), WF st →
    copyLoop c n st = .ok st2 →
    ∃ cs, avail st = cs ++ avail st2 ∧ st2.out = st.out ++ cs ∧ WF st2 := by
  intro n
  induction n with
  | zero => intro c st st2 _ h; exact R.noConfusion h
  | succ n ih =>
    intro c st st2 hwf h
    simp only [copyLoop] at h
    by_cases hc1 : c = EOF
    · rw [if_pos hc1] at h
      exact R.noConfusion h
    · rw [if_neg hc1] at h
      rcases hA : avail st with _ | ⟨b, t⟩
      · rw [get_nil true st hwf hA] at h
        have hwf0 : WF { st with preview := 0 } := WF_pv0_of_WF st hwf
        have hA0 : avail { st with preview := 0 } = [] :=
          avail_pv0_of_nil st hwf hA
        by_cases hc47 : c = 47
        · rw [if_pos hc47] at h
          norm_num [EOF] at h
          obtain ⟨cs3, hA3, ho3, hwf3⟩ := ih (-1) _ st2 hwf0 h
          rw [hA0] at hA3
          exact ⟨cs3, by rw [hA3], ho3, hwf3⟩
        · rw [if_neg hc47] at h
          by_cases hc42 : c = 42
          · rw [if_pos hc42] at h
            norm_num [EOF] at h
            obtain ⟨cs3, hA3, ho3, hwf3⟩ := ih (-1) _ st2 hwf0 h
            rw [hA0] at hA3
            exact ⟨cs3, by rw [hA3], ho3, hwf3⟩
          · rw [if_neg hc42] at h
            norm_num [EOF] at h
            obtain ⟨cs3, hA3, ho3, hwf3⟩ := ih (-1) _ st2 hwf0 h
            rw [hA0] at hA3
            exact ⟨cs3, by rw [hA3], ho3, hwf3⟩
      · obtain ⟨hb, hg⟩ := get_cons true st b t hwf hA
        have hwfg : WF (⟨t, 0, (lineStep st.cr st.line_nr b).1,
            (lineStep st.cr st.line_nr b).2, st.out ++ [b]⟩ : St) := by
          apply WF_mk
          intro z hz
          refine avail_pos st hwf z ?_
          rw [hA]
          simp [hz]
        by_cases hc47 : c = 47
        · rw [if_pos hc47, hg] at h
          norm_num [EOF] at h
          by_cases hb42 : b = 42
          · rw [if_pos hb42] at h
            exact R.noConfusion h
          · rw [if_neg hb42] at h
            obtain ⟨cs3, hA3, ho3, hwf3⟩ := ih b _ st2 hwfg h
            rw [avail_mk0] at hA3
            refine ⟨b :: cs3, ?_, ?_, hwf3⟩
            · rw [hA3]
              simp
            · have ho4 : st2.out = st.out ++ [b] ++ cs3 := ho3
              rw [ho4]
              simp
        · rw [if_neg hc47] at h
          by_cases hc42 : c = 42
          · rw [if_pos hc42, hg] at h
            norm_num [EOF] at h
            by_cases hb47 : b = 47
            · rw [if_pos hb47] at h
              injection h with h1
              rw [← h1]
              refine ⟨[b], ?_, by simp, hwfg⟩
              rw [avail_mk0]
              rfl
            · rw [if_neg hb47] at h
              obtain ⟨cs3, hA3, ho3, hwf3⟩ := ih b _ st2 hwfg h
              rw [avail_mk0] at hA3
              refine ⟨b :: cs3, ?_, ?_, hwf3⟩
              · rw [hA3]
                simp
              · have ho4 : st2.out = st.out ++ [b] ++ cs3 := ho3
                rw [ho4]
                simp
          · rw [if_neg hc42, hg] at h
            norm_num [EOF] at h
            obtain ⟨cs3, hA3, ho3, hwf3⟩ := ih b _ st2 hwfg h
            rw [avail_mk0] at hA3
            refine ⟨b :: cs3, ?_, ?_, hwf3⟩
            · rw [hA3]
              simp
            · have ho4 : st2.out = st.out ++ [b] ++ cs3 := ho3
              rw [ho4]
              simp

theorem matchCmd_some (cs : List Int) (table : List Entry) (e : Entry)
    (h : matchCmd cs table = some e) : e ∈ table ∧ e.cmd = cs := by
  unfold matchCmd at h
  refine ⟨List.mem_of_find?_eq_some h, ?_⟩
  have h2 := List.find?_some h
  exact eq_of_beq h2

theorem runs_mono : ∀ (u : List Int) (j k : Nat), j ≤ k → k < 80 →
    alphaRuns u j = true → alphaRuns u k = true := by
  intro u
  induction u with
  | nil => intro j k _ _ h; exact absurd h (by simp [alphaRuns])
  | cons b t ih =>
    intro j k hjk hk h
    simp only [alphaRuns] at h ⊢
    by_cases hab : is_alphanum b
    · rw [if_pos hab] at h ⊢
      by_cases hk1 : k + 1 = 80
      · rw [if_pos hk1]
      · rw [if_neg hk1]
        have hj1 : ¬ (j + 1 = 80) := by omega
        rw [if_neg hj1] at h
        exact ih (j + 1) (k + 1) (by omega) (by omega) h
    · rw [if_neg hab] at h ⊢
      exact h

theorem runs_lead : ∀ (cs rest : List Int) (k : Nat), k < 80 →
    80 ≤ k + cs.length → (∀ b ∈ cs, is_alphanum b) →
    alphaRuns (cs ++ rest) k = true := by
  intro cs
  induction cs with
  | nil => intro rest k hk hlen _; simp at hlen; omega
  | cons b t ih =>
    intro rest k hk hlen hal
    simp only [List.cons_append, alphaRuns]
    rw [if_pos (hal b (by simp))]
    by_cases hk1 : k + 1 = 80
    · rw [if_pos hk1]
    · rw [if_neg hk1]
      refine ih rest (k + 1) (by omega) ?_ (fun z hz => hal z (by simp [hz]))
      simp at hlen ⊢
      omega

theorem runs_lift : ∀ (s u : List Int) (k : Nat), k < 80 →
    alphaRuns u 0 = true → alphaRuns (s ++ u) k = true := by
  intro s
  induction s with
  | nil => intro u k hk h; exact runs_mono u 0 k (by omega) hk h
  | cons b t ih =>
    intro u k hk h
    simp only [List.cons_append, alphaRuns]
    by_cases hab : is_alphanum b
    · rw [if_pos hab]
      by_cases hk1 : k + 1 = 80
      · rw [if_pos hk1]
      · rw [if_neg hk1]
        exact ih u (k + 1) (by omega) h
    · rw [if_neg hab]
      exact ih u 0 (by omega) h

theorem runs_sub (input cs : List Int) (hinf : cs <:+: input)
    (hlen : cs.length = 80) (hal : ∀ b ∈ cs, is_alphanum b) :
    alphaRuns input 0 = true := by
  obtain ⟨s, t, hst⟩ := hinf
  rw [← hst, List.append_assoc]
  refine runs_lift s (cs ++ t) 0 (by omega) ?_
  exact runs_lead cs t 0 (by omega) (by omega) hal

theorem scan_spec : ∀ (n : Nat) (prev : Int) (st : St), WF st →
    ∀ cs d stB, scanCmdAux n prev st = (cs, d, stB) →
    WF stB ∧ stB.out = st.out ∧ (∀ b ∈ cs, is_alphanum b) ∧
    ((cs.length < n ∧
        ((0 < d ∧ ¬ is_alphanum d ∧ stB.preview = 0 ∧ avail st = cs ++ d :: avail stB)
          ∨ (d = -1 ∧ avail st = cs ∧ stB.input = [] ∧ stB.preview = 0)))
      ∨ (cs.length = n ∧ avail st = cs ++ avail stB)) := by
  intro n
  induction n with
  | zero =>
    intro prev st hwf cs d stB h
    simp only [scanCmdAux] at h
    injection h with h1 h2
    injection h2 with h2a h2b
    subst h1; subst h2a; subst h2b
    exact ⟨hwf, rfl, by simp, Or.inr ⟨rfl, by simp⟩⟩
  | succ n ih =>
    intro prev st hwf cs d stB h
    simp only [scanCmdAux] at h
    rcases hA : avail st with _ | ⟨b, t⟩
    · rw [get_nil false st hwf hA] at h
      norm_num at h
      rw [if_neg (show ¬ is_alphanum (-1) by decide)] at h
      injection h with h1 h2
      injection h2 with h2a h2b
      subst h1; subst h2a; subst h2b
      obtain ⟨hi, _⟩ := avail_nil_cases st hwf hA
      refine ⟨WF_pv0_of_WF st hwf, rfl, by simp, Or.inl ⟨by simp, Or.inr ⟨rfl, by simp [hA], hi, rfl⟩⟩⟩
    · obtain ⟨hb, hg⟩ := get_cons false st b t hwf hA
      rw [hg] at h
      norm_num at h
      have hwfg : WF (⟨t, 0, (lineStep st.cr st.line_nr b).1,
          (lineStep st.cr st.line_nr b).2, st.out⟩ : St) := by
        apply WF_mk
        intro z hz
        refine avail_pos st hwf z ?_
        rw [hA]
        simp [hz]
      by_cases hab : is_alphanum b
      · rw [if_pos hab] at h
        rcases hr : scanCmdAux n b (⟨t, 0, (lineStep st.cr st.line_nr b).1,
            (lineStep st.cr st.line_nr b).2, st.out⟩ : St) with ⟨cs1, d1, stB1⟩
        rw [hr] at h
        norm_num at h
        obtain ⟨h1, h2a, h2b⟩ := h
        subst h1; subst h2a; subst h2b
        obtain ⟨hwf1, hout1, hal1, hcase⟩ := ih b _ hwfg cs1 d1 stB1 hr
        rw [avail_mk0] at hcase
        refine ⟨hwf1, hout1, ?_, ?_⟩
        · intro z hz
          rcases List.mem_cons.mp hz with hz1 | hz2
          · rw [hz1]; exact hab
          · exact hal1 z hz2
        · rcases hcase with ⟨hlt, hsub⟩ | ⟨hlen, heq⟩
          · refine Or.inl ⟨by simp; omega, ?_⟩
            rcases hsub with ⟨hd, hnal, hpv, he⟩ | ⟨hd, he, hiB, hpB⟩
            · exact Or.inl ⟨hd, hnal, hpv, by rw [he]; simp⟩
            · exact Or.inr ⟨hd, by rw [he], hiB, hpB⟩
          · refine Or.inr ⟨by simp [hlen], by rw [heq]; simp⟩
      · rw [if_neg hab] at h
        injection h with h1 h2
        injection h2 with h2a h2b
        subst h1; subst h2a; subst h2b
        refine ⟨hwfg, rfl, by simp, Or.inl ⟨by simp, Or.inl ⟨hb, hab, rfl, ?_⟩⟩⟩
        rw [avail_mk0]
        simp

theorem pv_pos (d : Int) (hd : 0 < d) : pv d = [d] := by
  unfold pv
  rw [if_pos hd]

theorem pv_neg : pv (-1) = [] := by
  unfold pv
  norm_num

theorem emit_mk (x : Int) (t : List Int) (p : Int) (c : Bool) (l : Nat)
    (o : List Int) (hx : 0 < x) :
    emit x ⟨t, p, c, l, o⟩ = ⟨t, p, c, l, o ++ [x]⟩ := by
  unfold emit
  rw [if_pos hx]

theorem WF_pvPos (t : List Int) (b : Int) (c : Bool) (l : Nat) (o : List Int)
    (hb : 0 < b) (ht : ∀ z ∈ t, 0 < z) : WF (⟨t, b, c, l, o⟩ : St) :=
  ⟨ht, show -1 ≤ b by omega, fun h => absurd (show b = -1 from h) (by omega)⟩

theorem avail_pvPos (t : List Int) (b : Int) (c : Bool) (l : Nat) (o : List Int)
    (hb : 0 < b) : avail (⟨t, b, c, l, o⟩ : St) = b :: t := by
  unfold avail pv
  rw [if_pos hb]
  rfl

theorem avail_mkNeg (t : List Int) (c : Bool) (l : Nat) (o : List Int) :
    avail (⟨t, -1, c, l, o⟩ : St) = t := by
  unfold avail pv
  norm_num

theorem WF_emits (s : List Int) (st : St) (hwf : WF st) : WF (emits s st) := hwf

theorem WF_unget_pos (d : Int) (st : St) (hd : 0 < d) (hwf : WF st) :
    WF (unget d st) :=
  ⟨hwf.1, show -1 ≤ d by omega, fun h => absurd (show d = -1 from h) (by omega)⟩

theorem WF_unget_eof (st : St) (hwf : WF st) (hi : st.input = []) :
    WF (unget (-1) st) :=
  ⟨hwf.1, show -1 ≤ (-1 : Int) by norm_num, fun _ => hi⟩

theorem peek_mk_pv (t : List Int) (p : Int) (c : Bool) (l : Nat) (o : List Int)
    (hp : p ≠ 0) : peek ⟨t, p, c, l, o⟩ = (p, ⟨t, p, c, l, o⟩) := by
  unfold peek
  rw [if_pos (show (⟨t, p, c, l, o⟩ : St).preview ≠ 0 from hp)]

theorem step_tail (table : List Entry) (input0 : List Int) (n : Nat) (L : Int)
    (stX st2 : St) (hwf : WF stX) (hIN : input0 = stX.out ++ avail stX)
    (ihP : ∀ (c left : Int) (st st2 : St), WF st →
      ((c = -1 ∧ avail st = [] ∧ input0 = st.out) ∨
       (c = 0 ∧ input0 = st.out ++ avail st) ∨
       (0 < c ∧ input0 = st.out ++ c :: avail st)) →
      processLoop table c left n st = .ok st2 → st2.out = input0)
    (h : processLoop table (get false stX).1 L n (get false stX).2 = .ok st2) :
    st2.out = input0 := by
  rcases hA : avail stX with _ | ⟨b, t⟩
  · rw [get_nil false stX hwf hA] at h
    refine ihP (-1) L _ st2 (WF_pv0_of_WF stX hwf)
      (Or.inl ⟨rfl, avail_pv0_of_nil stX hwf hA, ?_⟩) h
    rw [hIN, hA]
    simp
  · obtain ⟨hb, hg⟩ := get_cons false stX b t hwf hA
    rw [hg] at h
    refine ihP b L _ st2
      (WF_mk t _ _ _ (fun z hz => avail_pos stX hwf z (by rw [hA]; simp [hz])))
      (Or.inr (Or.inr ⟨hb, ?_⟩)) h
    rw [hIN, hA]
    simp [avail_mk0]

theorem proc_echo : ∀ (n : Nat) (input0 : List Int) (table : List Entry),
    (∀ e ∈ table, ¬ e.cmd <:+: input0) →
    alphaRuns input0 0 = false →
    ∀ (c left : Int) (st st2 : St), WF st →
    ((c = -1 ∧ avail st = [] ∧ input0 = st.out) ∨
     (c = 0 ∧ input0 = st.out ++ avail st) ∨
     (0 < c ∧ input0 = st.out ++ c :: avail st)) →
    processLoop table c left n st = .ok st2 → st2.out = input0 := by
  intro n
  induction n with
  | zero =>
    intro input0 table h1 h2 c left st st2 _ _ h
    exact R.noConfusion h
  | succ n ih =>
    intro input0 table h1 h2 c left st st2 hwf hacc h
    rw [processLoop_succ, processStep] at h
    obtain ⟨si, sp, sc, sl, so⟩ := st
    rcases hacc with ⟨hc, hA0, hIN⟩ | ⟨hc, hIN⟩ | ⟨hc, hIN⟩
    · rw [if_pos (show c = EOF by rw [hc]; rfl)] at h
      injection h with h1b
      rw [← h1b, hIN]
    · subst hc
      rw [if_neg (show ¬ (0:Int) = EOF by decide)] at h
      rw [if_neg (show ¬ ((0:Int) = 39 ∨ (0:Int) = 34 ∨ (0:Int) = 96) by decide)] at h
      rw [if_neg (show ¬ (0:Int) = 47 by decide)] at h
      simp only [] at h
      rw [show emit 0 (⟨si, sp, sc, sl, so⟩ : St) = ⟨si, sp, sc, sl, so⟩ from by
        unfold emit; rw [if_neg (show ¬ (0:Int) < 0 by norm_num)]] at h
      exact step_tail table input0 n _ _ st2 hwf hIN (ih input0 table h1 h2) h
    · by_cases hq : c = 39 ∨ c = 34 ∨ c = 96
      · rw [if_neg (show ¬ c = EOF by simp only [EOF]; omega)] at h
        rw [if_pos hq] at h
        rw [emit_mk c si sp sc sl so hc] at h
        cases hs : string c false n (⟨si, sp, sc, sl, so ++ [c]⟩ : St) with
        | ok stS =>
          rw [hs] at h
          simp only [] at h
          have hs2 : strLoop c false sl n (⟨si, sp, sc, sl, so ++ [c]⟩ : St) =
            .ok stS := hs
          have hwf1 : WF (⟨si, sp, sc, sl, so ++ [c]⟩ : St) := hwf
          obtain ⟨cs, hA1, ho1, hwfS⟩ := str_echo n c sl _ stS hwf1 hs2
          have hA1b : avail (⟨si, sp, sc, sl, so⟩ : St) = cs ++ avail stS := hA1
          have ho1b : stS.out = so ++ [c] ++ cs := ho1
          refine ih input0 table h1 h2 0 left stS st2 hwfS
            (Or.inr (Or.inl ⟨rfl, ?_⟩)) h
          rw [hIN, hA1b, ho1b]
          simp
        | err l m => rw [hs] at h; exact R.noConfusion h
        | fuel => rw [hs] at h; exact R.noConfusion h
      · by_cases hc47 : c = 47
        · subst hc47
          rw [if_neg (show ¬ (47:Int) = EOF by decide)] at h
          rw [if_neg hq] at h
          rw [if_pos rfl] at h
          simp only [] at h
          rcases hA : avail (⟨si, sp, sc, sl, so⟩ : St) with _ | ⟨b, t⟩
          · -- end of input after the slash
            obtain ⟨hsi, _⟩ := avail_nil_cases _ hwf hA
            subst hsi
            rw [peek_nil _ hwf hA] at h
            norm_num at h
            rw [peek_mk_pv [] (-1) sc sl so (by norm_num)] at h
            norm_num at h
            rw [emit_mk 47 [] (-1) sc sl so (by norm_num)] at h
            have hwfM : WF (⟨[], -1, sc, sl, so ++ [47]⟩ : St) :=
              ⟨by simp, show -1 ≤ (-1 : Int) by norm_num, fun _ => rfl⟩
            have hAM : avail (⟨([] : List Int), -1, sc, sl, so ++ [47]⟩ : St) = [] :=
              avail_mkNeg [] sc sl (so ++ [47])
            by_cases hpre : pre_regexp left
            · rw [if_pos hpre] at h
              cases hrx : regexp false n (⟨[], -1, sc, sl, so ++ [47]⟩ : St) with
              | ok st4 =>
                rw [hrx] at h
                simp only [] at h
                have hrx2 : rexLoop false sl n
                    (⟨[], -1, sc, sl, so ++ [47]⟩ : St) = .ok st4 := hrx
                obtain ⟨cs, hA4, ho4, hwf4⟩ := rex_echo n sl _ st4 hwfM hrx2
                rw [hAM] at hA4
                obtain ⟨hcs0, hav0⟩ := List.append_eq_nil.mp hA4.symm
                refine step_tail table input0 n _ st4 st2 hwf4 ?_
                  (ih input0 table h1 h2) h
                rw [hIN, hA, ho4, hcs0, hav0]
                simp
              | err l m => rw [hrx] at h; exact R.noConfusion h
              | fuel => rw [hrx] at h; exact R.noConfusion h
            · rw [if_neg hpre] at h
              refine step_tail table input0 n _ _ st2 hwfM ?_
                (ih input0 table h1 h2) h
              rw [hIN, hA, hAM]
              simp
          · obtain ⟨hb, hpk⟩ := peek_cons _ b t hwf hA
            rw [hpk] at h
            norm_num at h
            have htpos : ∀ z ∈ t, 0 < z := fun z hz =>
              avail_pos _ hwf z (by rw [hA]; simp [hz])
            by_cases hb47 : b = 47
            · -- line comment
              rw [if_pos hb47] at h
              rw [emit_mk 47 t b sc sl so (by norm_num)] at h
              cases hlc : lcLoop n (⟨t, b, sc, sl, so ++ [47]⟩ : St) with
              | ok stL =>
                rw [hlc] at h
                simp only [] at h
                obtain ⟨cs, hAL, hoL, hwfL⟩ := lc_echo n _ stL
                  (WF_pvPos t b sc sl _ hb htpos) hlc
                rw [avail_pvPos t b sc sl _ hb] at hAL
                refine step_tail table input0 n _ stL st2 hwfL ?_
                  (ih input0 table h1 h2) h
                rw [hIN, hA, hAL, hoL]
                simp
              | err l m => rw [hlc] at h; exact R.noConfusion h
              | fuel => rw [hlc] at h; exact R.noConfusion h
            · rw [if_neg hb47] at h
              rw [peek_mk_pv t b sc sl so (by omega)] at h
              norm_num at h
              by_cases hb42 : b = 42
              · -- a slashstar comment
                rw [if_pos hb42] at h
                rw [get_eq_preview false b t sc sl so hb] at h
                norm_num at h
                rcases hr : scanCmdAux 80 0 (⟨t, 0, (lineStep sc sl b).1,
                    (lineStep sc sl b).2, so⟩ : St) with ⟨cs, d, stB⟩
                rw [hr] at h
                norm_num at h
                obtain ⟨hwfB, houtB, halB, hcase⟩ := scan_spec 80 0 _
                  (WF_mk t _ _ _ htpos) cs d stB hr
                rw [avail_mk0] at hcase
                have houtB2 : stB.out = so := houtB
                rcases hcase with ⟨hlt, hbr⟩ | ⟨hlen, hex⟩
                · -- scan broke before 80 characters
                  have hkey : WF (emits (47 :: 42 :: cs) (unget d stB)) ∧
                      input0 = (emits (47 :: 42 :: cs) (unget d stB)).out ++
                        avail (emits (47 :: 42 :: cs) (unget d stB)) := by
                    rcases hbr with ⟨hd, hnal, hpv0, he⟩ | ⟨hd, he, hiB, hpvB⟩
                    · refine ⟨WF_emits _ _ (WF_unget_pos d stB hd hwfB), ?_⟩
                      rw [hIN, hA, hb42, he]
                      show so ++ 47 :: 42 :: (cs ++ d :: avail stB) =
                        (stB.out ++ (47 :: 42 :: cs)) ++ (pv d ++ stB.input)
                      rw [houtB2, pv_pos d hd, avail_pv0 stB hpv0]
                      simp
                    · subst hd
                      refine ⟨WF_emits _ _ (WF_unget_eof stB hwfB hiB), ?_⟩
                      rw [hIN, hA, hb42, he]
                      show so ++ 47 :: 42 :: cs =
                        (stB.out ++ (47 :: 42 :: cs)) ++ (pv (-1) ++ stB.input)
                      rw [houtB2, pv_neg, hiB]
                      simp
                  obtain ⟨hwfE, hINE⟩ := hkey
                  by_cases hcsnil : cs = []
                  · rw [if_pos hcsnil] at h
                    simp only [] at h
                    cases hcp : copyLoop d n
                        (emits (47 :: 42 :: cs) (unget d stB)) with
                    | ok st4 =>
                      rw [hcp] at h
                      simp only [] at h
                      obtain ⟨cs2, hA2, ho2, hwf4⟩ := copy_echo n d _ st4 hwfE hcp
                      refine step_tail table input0 n _ st4 st2 hwf4 ?_
                        (ih input0 table h1 h2) h
                      rw [hINE, hA2, ho2]
                      simp
                    | err l m => rw [hcp] at h; exact R.noConfusion h
                    | fuel => rw [hcp] at h; exact R.noConfusion h
                  · rw [if_neg hcsnil] at h
                    cases hm : matchCmd cs table with
                    | some e =>
                      exfalso
                      obtain ⟨hmem, hcmd⟩ := matchCmd_some cs table e hm
                      refine h1 e hmem ?_
                      rw [hcmd]
                      refine ⟨so ++ [47, 42],
                        avail (emits (47 :: 42 :: cs) (unget d stB)), ?_⟩
                      rw [hINE]
                      show (so ++ [47, 42]) ++ cs ++
                          avail (emits (47 :: 42 :: cs) (unget d stB)) =
                        (stB.out ++ (47 :: 42 :: cs)) ++
                          avail (emits (47 :: 42 :: cs) (unget d stB))
                      rw [houtB2]
                      simp
                    | none =>
                      rw [hm] at h
                      simp only [] at h
                      cases hcp : copyLoop d n
                          (emits (47 :: 42 :: cs) (unget d stB)) with
                      | ok st4 =>
                        rw [hcp] at h
                        simp only [] at h
                        obtain ⟨cs2, hA2, ho2, hwf4⟩ := copy_echo n d _ st4 hwfE hcp
                        refine step_tail table input0 n _ st4 st2 hwf4 ?_
                          (ih input0 table h1 h2) h
                        rw [hINE, hA2, ho2]
                        simp
                      | err l m => rw [hcp] at h; exact R.noConfusion h
                      | fuel => rw [hcp] at h; exact R.noConfusion h
                · -- an 80-character identifier run is excluded
                  exfalso
                  have hinf : cs <:+: input0 := by
                    refine ⟨so ++ [47, 42], avail stB, ?_⟩
                    rw [hIN, hA, hb42, hex]
                    simp
                  have htrue := runs_sub input0 cs hinf hlen halB
                  rw [h2] at htrue
                  exact Bool.noConfusion htrue
              · -- a lone slash: division or regexp
                rw [if_neg hb42] at h
                rw [emit_mk 47 t b sc sl so (by norm_num)] at h
                by_cases hpre : pre_regexp left
                · rw [if_pos hpre] at h
                  cases hrx : regexp false n (⟨t, b, sc, sl, so ++ [47]⟩ : St) with
                  | ok st4 =>
                    rw [hrx] at h
                    simp only [] at h
                    have hrx2 : rexLoop false sl n
                        (⟨t, b, sc, sl, so ++ [47]⟩ : St) = .ok st4 := hrx
                    obtain ⟨cs, hA4, ho4, hwf4⟩ := rex_echo n sl _ st4
                      (WF_pvPos t b sc sl _ hb htpos) hrx2
                    rw [avail_pvPos t b sc sl _ hb] at hA4
                    refine step_tail table input0 n _ st4 st2 hwf4 ?_
                      (ih input0 table h1 h2) h
                    rw [hIN, hA, hA4, ho4]
                    simp
                  | err l m => rw [hrx] at h; exact R.noConfusion h
                  | fuel => rw [hrx] at h; exact R.noConfusion h
                · rw [if_neg hpre] at h
                  refine step_tail table input0 n _ _ st2
                    (WF_pvPos t b sc sl (so ++ [47]) hb htpos) ?_
                    (ih input0 table h1 h2) h
                  rw [hIN, hA, avail_pvPos t b sc sl _ hb]
                  simp
        · -- an ordinary character
          rw [if_neg (show ¬ c = EOF by simp only [EOF]; omega)] at h
          rw [if_neg hq] at h
          rw [if_neg hc47] at h
          simp only [] at h
          rw [emit_mk c si sp sc sl so hc] at h
          refine step_tail table input0 n _ _ st2
            (show WF (⟨si, sp, sc, sl, so ++ [c]⟩ : St) from hwf) ?_
            (ih input0 table h1 h2) h
          rw [hIN]
          show so ++ c :: (pv sp ++ si) = (so ++ [c]) ++ (pv sp ++ si)
          simp

/-- C2: claim id C2 — pass-through invariance, corrected.  For an input
free of NUL bytes, in which no declared trigger occurs as a contiguous
substring and no run of 80 consecutive identifier-class characters
occurs, a successful scan emits the input unchanged, byte for byte. -/
theorem C2_amended (table : List Entry) (input : List Int) (n : Nat) (st2 : St)
    (hbytes : ∀ b ∈ input, 0 < b)
    (htrig : ∀ e ∈ table, ¬ e.cmd <:+: input)
    (hrun : alphaRuns input 0 = false)
    (h : jsdev table input n = .ok st2) :
    st2.out = input := by
  have hint : jsdev table input n =
      processLoop table (get false (⟨input, 0, false, 1, []⟩ : St)).1 0 n
        (get false (⟨input, 0, false, 1, []⟩ : St)).2 := rfl
  rw [hint] at h
  cases input with
  | nil =>
    have hg : get false (⟨([] : List Int), 0, false, 1, []⟩ : St) =
        (-1, ⟨[], 0, false, 1, []⟩) := rfl
    rw [hg] at h
    exact proc_echo n [] table htrig hrun (-1) 0 (⟨[], 0, false, 1, []⟩ : St) st2
      ⟨by simp, by norm_num, fun _ => rfl⟩
      (Or.inl ⟨rfl, by rw [avail_mk0], rfl⟩) h
  | cons b t =>
    have hb : 0 < b := hbytes b (by simp)
    rw [get_eq_pop false b t false 1 [] hb] at h
    norm_num at h
    exact proc_echo n (b :: t) table htrig hrun b 0
      (⟨t, 0, (lineStep false 1 b).1, (lineStep false 1 b).2, []⟩ : St) st2
      (WF_mk t _ _ _ (fun z hz => hbytes z (by simp [hz])))
      (Or.inr (Or.inr ⟨hb, by rw [avail_mk0]; simp⟩)) h

theorem C2_witness :
    (∀ b ∈ strBytes "a = \"x*/y\";\nr = /a[b/]c/g;\nb = a / 2; // half\n/*skip it*/\n", 0 < b) ∧
    (∀ e ∈ [Entry.mk (strBytes "debug") (strBytes "console.log")],
      ¬ e.cmd <:+: strBytes "a = \"x*/y\";\nr = /a[b/]c/g;\nb = a / 2; // half\n/*skip it*/\n") ∧
    alphaRuns (strBytes "a = \"x*/y\";\nr = /a[b/]c/g;\nb = a / 2; // half\n/*skip it*/\n") 0 = false ∧
    (⟨[], 0, false, 5,
      strBytes "a = \"x*/y\";\nr = /a[b/]c/g;\nb = a / 2; // half\n/*skip it*/\n"⟩ : St).out =
      strBytes "a = \"x*/y\";\nr = /a[b/]c/g;\nb = a / 2; // half\n/*skip it*/\n" :=
  ⟨by decide, by decide, by decide,
    C2_amended [Entry.mk (strBytes "debug") (strBytes "console.log")]
      (strBytes "a = \"x*/y\";\nr = /a[b/]c/g;\nb = a / 2; // half\n/*skip it*/\n") 200
      ⟨[], 0, false, 5,
        strBytes "a = \"x*/y\";\nr = /a[b/]c/g;\nb = a / 2; // half\n/*skip it*/\n"⟩
      (by decide) (by decide) (by decide) (by decide)⟩

end JSDev
